import Mathlib

/-!
# Verification of the lucy_notes_daemon core against its specification

This file is a shallow embedding, in Lean 4, of the parts of the
`lucy_notes_daemon` Python repository that the specification's testable
claims talk about:

* the self-write ignore ledger and the open-event throttle of
  `lucy_notes_manager/file_handler.py`,
* the module pipeline of `lucy_notes_manager/module_manager.py`,
* the per-file directive parser of `lucy_notes_manager/lib/args.py`,
* the Markdown/Plasma-HTML synchronizer of
  `lucy_notes_manager/modules/plasma_sync.py`,
* the push-backoff bookkeeping of `lucy_notes_manager/modules/git.py`.

Python dictionaries are modelled as insertion-ordered association lists,
Python strings as Lean `String`/`List Char`, monotonic clock values as
rationals.  Stateful methods become explicit state-passing functions.
Each embedded definition carries a comment naming the Python symbol it
was translated from.
-/

namespace LucyNotes

/-! ## Python dict model

Python 3.7+ dictionaries preserve insertion order; updating the value of
an existing key keeps its position, inserting a new key appends it at the
end, and deleting removes it.  We model a dict as an association list in
insertion order. -/

/-- `m.get(k, d)` on a Python dict modelled as an association list. -/
def dictGet {β : Type} (m : List (String × β)) (k : String) (d : β) : β :=
  match m.find? (fun kv => kv.1 == k) with
  | some kv => kv.2
  | none => d

/-- `m.get(k)` / `m[k]` as an optional lookup. -/
def dictFind {β : Type} (m : List (String × β)) (k : String) : Option β :=
  match m.find? (fun kv => kv.1 == k) with
  | some kv => some kv.2
  | none => none

/-- `m[k] = v` on a Python dict: update in place if the key exists,
append otherwise. -/
def dictSet {β : Type} (m : List (String × β)) (k : String) (v : β) :
    List (String × β) :=
  match m with
  | [] => [(k, v)]
  | kv :: rest =>
    if kv.1 == k then (k, v) :: rest else kv :: dictSet rest k v

/-- `del m[k]` on a Python dict (no error if absent, callers guard). -/
def dictDel {β : Type} (m : List (String × β)) (k : String) :
    List (String × β) :=
  match m with
  | [] => []
  | kv :: rest => if kv.1 == k then rest else kv :: dictDel rest k

/-- `k in m` on a Python dict. -/
def dictMem {β : Type} (m : List (String × β)) (k : String) : Bool :=
  (m.find? (fun kv => kv.1 == k)).isSome

/-! ## File Event Handler: the self-write ignore ledger

Embeds `FileHandler._bump_ignore`, `FileHandler._check_and_delete_ignore`
and `FileHandler._mark_to_ignore` from
`src/lucy_notes_manager/file_handler.py`.  `FileHandler._abs` is
`os.path.abspath`, which we model as the identity on already-absolute
path atoms. -/

/-- `FileHandler._bump_ignore(path, delta)`: read the current counter
(default 0), add `delta`; if the result is `≤ 0` delete the key and
report 0, otherwise store and report the new value. -/
def bumpIgnore (m : List (String × Int)) (path : String) (delta : Int) :
    Int × List (String × Int) :=
  let cur := dictGet m path 0
  let new := cur + delta
  if new ≤ 0 then
    (0, if dictMem m path then dictDel m path else m)
  else
    (new, dictSet m path new)

/-- `FileHandler._check_and_delete_ignore(input_path)`: if the counter is
`≤ 0` report `false` (event not suppressed); otherwise decrement by one
and report `true`. -/
def checkAndDeleteIgnore (m : List (String × Int)) (path : String) :
    Bool × List (String × Int) :=
  let cur := dictGet m path 0
  if cur ≤ 0 then (false, m)
  else (true, (bumpIgnore m path (-1)).2)

/-- `FileHandler._mark_to_ignore(ignore_paths)`: bump the ledger once per
`(path, count)` pair of a returned change map. -/
def markToIgnore (m : List (String × Int)) (pairs : List (String × Int)) :
    List (String × Int) :=
  match pairs with
  | [] => m
  | (p, c) :: rest => markToIgnore (bumpIgnore m p c).2 rest

/-- The ledger invariant of the spec: every entry present has a strictly
positive counter. -/
def LedgerInv (m : List (String × Int)) : Prop :=
  ∀ kv ∈ m, 0 < kv.2

/-- Reachable ledger states of the File Event Handler: starting from the
empty ledger, the handler only ever mutates the ledger through
`_mark_to_ignore` (change-map increments) and
`_check_and_delete_ignore` (per-event decrements). -/
inductive LedgerReach : List (String × Int) → Prop where
  | init : LedgerReach []
  | mark {m} (pairs : List (String × Int)) :
      LedgerReach m → LedgerReach (markToIgnore m pairs)
  | check {m} (path : String) :
      LedgerReach m → LedgerReach (checkAndDeleteIgnore m path).2

/-- Keys of a modelled dict are pairwise distinct (always true of a real
Python dict). -/
def KeysNodup {β : Type} (m : List (String × β)) : Prop :=
  (m.map Prod.fst).Nodup

theorem dictGet_cons_eq {β : Type} (kv : String × β)
    (rest : List (String × β)) (k : String) (d : β)
    (hb : (kv.1 == k) = true) :
    dictGet (kv :: rest) k d = kv.2 := by
  simp [dictGet, List.find?, hb]

theorem dictGet_cons_ne {β : Type} (kv : String × β)
    (rest : List (String × β)) (k : String) (d : β)
    (hb : (kv.1 == k) = false) :
    dictGet (kv :: rest) k d = dictGet rest k d := by
  simp [dictGet, List.find?, hb]

theorem dictMem_cons_eq {β : Type} (kv : String × β)
    (rest : List (String × β)) (k : String) (hb : (kv.1 == k) = true) :
    dictMem (kv :: rest) k = true := by
  simp [dictMem, List.find?, hb]

theorem dictMem_cons_ne {β : Type} (kv : String × β)
    (rest : List (String × β)) (k : String) (hb : (kv.1 == k) = false) :
    dictMem (kv :: rest) k = dictMem rest k := by
  simp [dictMem, List.find?, hb]

theorem dictGet_dictSet_self {β : Type} (m : List (String × β)) (k : String) (v d : β) :
    dictGet (dictSet m k v) k d = v := by
  induction m with
  | nil => simp [dictGet, dictSet, List.find?]
  | cons kv rest ih =>
    cases hb : (kv.1 == k) with
    | true => simp [dictSet, hb, dictGet, List.find?]
    | false =>
      simp only [dictSet, hb, Bool.false_eq_true, if_false]
      rw [dictGet_cons_ne _ _ _ _ hb]
      exact ih

theorem dictMem_dictSet_self {β : Type} (m : List (String × β)) (k : String) (v : β) :
    dictMem (dictSet m k v) k = true := by
  induction m with
  | nil => simp [dictMem, dictSet, List.find?]
  | cons kv rest ih =>
    cases hb : (kv.1 == k) with
    | true => simp [dictSet, hb, dictMem, List.find?]
    | false =>
      simp only [dictSet, hb, Bool.false_eq_true, if_false]
      rw [dictMem_cons_ne _ _ _ hb]
      exact ih

theorem mem_dictSet {β : Type} (m : List (String × β)) (k : String) (v : β) :
    ∀ kv ∈ dictSet m k v, kv ∈ m ∨ kv = (k, v) := by
  induction m with
  | nil => simp [dictSet]
  | cons kv0 rest ih =>
    intro kv hkv
    cases hb : (kv0.1 == k) with
    | true =>
      simp only [dictSet, hb, if_true] at hkv
      rcases List.mem_cons.1 hkv with h1 | h1
      · right; exact h1
      · left; exact List.mem_cons_of_mem _ h1
    | false =>
      simp only [dictSet, hb, Bool.false_eq_true, if_false] at hkv
      rcases List.mem_cons.1 hkv with h1 | h1
      · left; exact h1 ▸ List.mem_cons_self _ _
      · rcases ih kv h1 with h2 | h2
        · left; exact List.mem_cons_of_mem _ h2
        · right; exact h2

theorem mem_dictDel {β : Type} (m : List (String × β)) (k : String) :
    ∀ kv ∈ dictDel m k, kv ∈ m := by
  induction m with
  | nil => simp [dictDel]
  | cons kv0 rest ih =>
    intro kv hkv
    cases hb : (kv0.1 == k) with
    | true =>
      simp only [dictDel, hb, if_true] at hkv
      exact List.mem_cons_of_mem _ hkv
    | false =>
      simp only [dictDel, hb, Bool.false_eq_true, if_false] at hkv
      rcases List.mem_cons.1 hkv with h1 | h1
      · exact h1 ▸ List.mem_cons_self _ _
      · exact List.mem_cons_of_mem _ (ih kv h1)

theorem keys_dictDel_subset {β : Type} (m : List (String × β)) (k : String) :
    ∀ s ∈ (dictDel m k).map Prod.fst, s ∈ m.map Prod.fst := by
  intro s hs
  rcases List.mem_map.1 hs with ⟨kv, hkv, rfl⟩
  exact List.mem_map_of_mem _ (mem_dictDel m k kv hkv)

theorem keysNodup_dictDel {β : Type} (m : List (String × β)) (k : String)
    (h : KeysNodup m) : KeysNodup (dictDel m k) := by
  induction m with
  | nil => simpa [dictDel] using h
  | cons kv0 rest ih =>
    rcases List.nodup_cons.1 h with ⟨hk, hrest⟩
    cases hb : (kv0.1 == k) with
    | true => simpa [dictDel, hb, KeysNodup] using hrest
    | false =>
      simp only [dictDel, hb, Bool.false_eq_true, if_false]
      unfold KeysNodup
      rw [List.map_cons]
      refine List.nodup_cons.2 ⟨fun hc => hk ?_, ih hrest⟩
      exact keys_dictDel_subset rest k _ hc

theorem keysNodup_dictSet {β : Type} (m : List (String × β)) (k : String) (v : β)
    (h : KeysNodup m) : KeysNodup (dictSet m k v) := by
  induction m with
  | nil => simp [dictSet, KeysNodup]
  | cons kv0 rest ih =>
    rcases List.nodup_cons.1 h with ⟨hk, hrest⟩
    cases hb : (kv0.1 == k) with
    | true =>
      have hkk : kv0.1 = k := beq_iff_eq.1 hb
      simp only [dictSet, hb, if_true]
      unfold KeysNodup
      rw [List.map_cons]
      exact List.nodup_cons.2 ⟨fun hc => hk (hkk ▸ hc), hrest⟩
    | false =>
      have hkk : ¬ kv0.1 = k := fun he => by simp [he] at hb
      simp only [dictSet, hb, Bool.false_eq_true, if_false]
      unfold KeysNodup
      rw [List.map_cons]
      refine List.nodup_cons.2 ⟨?_, ih hrest⟩
      intro hc
      rcases List.mem_map.1 hc with ⟨kv, hkv, hfst⟩
      rcases mem_dictSet rest k v kv hkv with h2 | h2
      · exact hk (hfst ▸ List.mem_map_of_mem _ h2)
      · apply hkk
        rw [← hfst, h2]

theorem dictMem_eq_false_of_not_mem_keys {β : Type} (m : List (String × β)) (k : String)
    (h : k ∉ m.map Prod.fst) : dictMem m k = false := by
  induction m with
  | nil => simp [dictMem, List.find?]
  | cons kv0 rest ih =>
    rw [List.map_cons] at h
    have h1 : kv0.1 ≠ k := fun he => h (he ▸ List.mem_cons_self _ _)
    have h2 : k ∉ rest.map Prod.fst := fun hm => h (List.mem_cons_of_mem _ hm)
    rw [dictMem_cons_ne _ _ _ (by simpa using h1)]
    exact ih h2

theorem dictMem_dictDel_self {β : Type} (m : List (String × β)) (k : String)
    (h : KeysNodup m) : dictMem (dictDel m k) k = false := by
  induction m with
  | nil => simp [dictDel, dictMem, List.find?]
  | cons kv0 rest ih =>
    rcases List.nodup_cons.1 h with ⟨hk, hrest⟩
    cases hb : (kv0.1 == k) with
    | true =>
      have hkk : kv0.1 = k := beq_iff_eq.1 hb
      simp only [dictDel, hb, if_true]
      exact dictMem_eq_false_of_not_mem_keys rest k (hkk ▸ hk)
    | false =>
      simp only [dictDel, hb, Bool.false_eq_true, if_false]
      rw [dictMem_cons_ne _ _ _ hb]
      exact ih hrest

theorem dictGet_pos_of_mem (m : List (String × Int)) (k : String)
    (hinv : LedgerInv m) (hmem : dictMem m k = true) : 0 < dictGet m k 0 := by
  induction m with
  | nil => simp [dictMem, List.find?] at hmem
  | cons kv0 rest ih =>
    cases hb : (kv0.1 == k) with
    | true =>
      rw [dictGet_cons_eq _ _ _ _ hb]
      exact hinv kv0 (List.mem_cons_self _ _)
    | false =>
      rw [dictMem_cons_ne _ _ _ hb] at hmem
      rw [dictGet_cons_ne _ _ _ _ hb]
      exact ih (fun kv hkv => hinv kv (List.mem_cons_of_mem _ hkv)) hmem

theorem ledgerInv_dictSet (m : List (String × Int)) (k : String) (v : Int)
    (h : LedgerInv m) (hv : 0 < v) : LedgerInv (dictSet m k v) := by
  intro kv hkv
  rcases mem_dictSet m k v kv hkv with h1 | h1
  · exact h kv h1
  · rw [h1]; exact hv

theorem ledgerInv_dictDel (m : List (String × Int)) (k : String)
    (h : LedgerInv m) : LedgerInv (dictDel m k) :=
  fun kv hkv => h kv (mem_dictDel m k kv hkv)

theorem ledgerInv_bumpIgnore (m : List (String × Int)) (p : String) (d : Int)
    (h : LedgerInv m) : LedgerInv (bumpIgnore m p d).2 := by
  by_cases hle : dictGet m p 0 + d ≤ 0
  · by_cases hm : dictMem m p = true
    · simpa [bumpIgnore, hle, hm] using ledgerInv_dictDel m p h
    · simpa [bumpIgnore, hle, hm] using h
  · simpa [bumpIgnore, hle] using
      ledgerInv_dictSet m p _ h (by omega)

theorem keysNodup_bumpIgnore (m : List (String × Int)) (p : String) (d : Int)
    (h : KeysNodup m) : KeysNodup (bumpIgnore m p d).2 := by
  by_cases hle : dictGet m p 0 + d ≤ 0
  · by_cases hm : dictMem m p = true
    · simpa [bumpIgnore, hle, hm] using keysNodup_dictDel m p h
    · simpa [bumpIgnore, hle, hm] using h
  · simpa [bumpIgnore, hle] using keysNodup_dictSet m p _ h

theorem ledgerInv_markToIgnore (m : List (String × Int))
    (pairs : List (String × Int)) (h : LedgerInv m) :
    LedgerInv (markToIgnore m pairs) := by
  induction pairs generalizing m with
  | nil => simpa [markToIgnore] using h
  | cons pc rest ih =>
    simp only [markToIgnore]
    exact ih _ (ledgerInv_bumpIgnore m pc.1 pc.2 h)

theorem keysNodup_markToIgnore (m : List (String × Int))
    (pairs : List (String × Int)) (h : KeysNodup m) :
    KeysNodup (markToIgnore m pairs) := by
  induction pairs generalizing m with
  | nil => simpa [markToIgnore] using h
  | cons pc rest ih =>
    simp only [markToIgnore]
    exact ih _ (keysNodup_bumpIgnore m pc.1 pc.2 h)

theorem ledgerInv_checkAndDeleteIgnore (m : List (String × Int)) (p : String)
    (h : LedgerInv m) : LedgerInv (checkAndDeleteIgnore m p).2 := by
  by_cases hle : dictGet m p 0 ≤ 0
  · simpa [checkAndDeleteIgnore, hle] using h
  · simpa [checkAndDeleteIgnore, hle] using ledgerInv_bumpIgnore m p (-1) h

theorem keysNodup_checkAndDeleteIgnore (m : List (String × Int)) (p : String)
    (h : KeysNodup m) : KeysNodup (checkAndDeleteIgnore m p).2 := by
  by_cases hle : dictGet m p 0 ≤ 0
  · simpa [checkAndDeleteIgnore, hle] using h
  · simpa [checkAndDeleteIgnore, hle] using keysNodup_bumpIgnore m p (-1) h

theorem ledgerReach_inv (m : List (String × Int)) (h : LedgerReach m) :
    LedgerInv m ∧ KeysNodup m := by
  induction h with
  | init => exact ⟨fun kv hkv => (List.not_mem_nil kv hkv).elim, List.nodup_nil⟩
  | mark pairs _ ih =>
    exact ⟨ledgerInv_markToIgnore _ pairs ih.1, keysNodup_markToIgnore _ pairs ih.2⟩
  | check path _ ih =>
    exact ⟨ledgerInv_checkAndDeleteIgnore _ path ih.1,
      keysNodup_checkAndDeleteIgnore _ path ih.2⟩

/-- **C5.** At every reachable state of the File Event Handler, every
entry of the ignore ledger has a strictly positive counter; a decrement
(`_check_and_delete_ignore`) removes a present key exactly when its
counter is 1 (the decrement that would bring it to zero); and an
increment by a change-map count (`_mark_to_ignore` / `_bump_ignore`)
never stores a non-positive value, since `_bump_ignore` deletes the key
whenever the new counter would be `≤ 0`. -/
theorem ledger_invariant_and_removal (m : List (String × Int))
    (hreach : LedgerReach m) :
    LedgerInv m ∧
      (∀ p, dictMem m p = true →
        (dictMem (checkAndDeleteIgnore m p).2 p = false ↔ dictGet m p 0 = 1)) ∧
      (∀ p d, 0 < dictGet m p 0 + d →
        dictGet (bumpIgnore m p d).2 p 0 = dictGet m p 0 + d) ∧
      (∀ p d, LedgerInv (bumpIgnore m p d).2) := by
  obtain ⟨hinv, hnodup⟩ := ledgerReach_inv m hreach
  refine ⟨hinv, ?_, ?_, fun p d => ledgerInv_bumpIgnore m p d hinv⟩
  · intro p hmem
    have hpos := dictGet_pos_of_mem m p hinv hmem
    have hns : ¬ dictGet m p 0 ≤ 0 := by omega
    constructor
    · intro hdel
      by_contra hne
      have h2 : ¬ (dictGet m p 0 + (-1) ≤ 0) := by omega
      simp only [checkAndDeleteIgnore, bumpIgnore, hns, if_false, h2] at hdel
      rw [dictMem_dictSet_self] at hdel
      exact Bool.noConfusion hdel
    · intro hone
      have h0 : dictGet m p 0 + (-1) ≤ 0 := by omega
      simp only [checkAndDeleteIgnore, bumpIgnore, hns, if_false, h0, if_true, hmem]
      exact dictMem_dictDel_self m p hnodup
  · intro p d hpos
    have hns : ¬ (dictGet m p 0 + d ≤ 0) := by omega
    simp only [bumpIgnore, hns, if_false]
    exact dictGet_dictSet_self m p _ _

/-- Witness for `ledger_invariant_and_removal` at a concrete reachable
state: the ledger `{a ↦ 2}` obtained by marking `{a ↦ 2}` from empty. -/
theorem ledger_invariant_and_removal_witness :
    LedgerInv (markToIgnore [] [("a", 2)]) ∧
      (∀ p, dictMem (markToIgnore [] [("a", 2)]) p = true →
        (dictMem (checkAndDeleteIgnore (markToIgnore [] [("a", 2)]) p).2 p
            = false ↔ dictGet (markToIgnore [] [("a", 2)]) p 0 = 1)) ∧
      (∀ p d, 0 < dictGet (markToIgnore [] [("a", 2)]) p 0 + d →
        dictGet (bumpIgnore (markToIgnore [] [("a", 2)]) p d).2 p 0
          = dictGet (markToIgnore [] [("a", 2)]) p 0 + d) ∧
      (∀ p d, LedgerInv (bumpIgnore (markToIgnore [] [("a", 2)]) p d).2) :=
  ledger_invariant_and_removal _ (LedgerReach.mark [("a", 2)] LedgerReach.init)

/-! ## Git Committer: push-backoff bookkeeping

Embeds `Git._register_push_failure` and the success-reset branch of
`Git._process_batch` from `src/lucy_notes_manager/modules/git.py`,
restricted to a single repository root.  The two per-root dict entries
`_push_backoff_seconds[root]` and `_push_next_allowed_at[root]` are
modelled as `Option ℚ` (absent entry = `none`; `dict.get` defaults are
applied at the use sites exactly as in the source).  Clock values
(`time.time()`) are rationals. -/

/-- Backoff bookkeeping for one repository root. -/
structure PushBackoff where
  backoff : Option ℚ
  nextAllowed : Option ℚ
deriving DecidableEq

/-- `Git._register_push_failure(repo_root, start, max)`:
`cur = _push_backoff_seconds.get(root, start)`,
`new = min(max(cur, start) * 2.0, max)`, store `new` and
`next_allowed = time.time() + new`. -/
def registerPushFailure (start maxB now : ℚ) (st : PushBackoff) : PushBackoff :=
  let currentBackoff := st.backoff.getD start
  let newBackoff := min (max currentBackoff start * 2) maxB
  { backoff := some newBackoff, nextAllowed := some (now + newBackoff) }

/-- The success branch of `Git._process_batch`: on a successful push,
`_push_backoff_seconds[root] = backoff_start_seconds` and
`_push_next_allowed_at[root] = 0.0`. -/
def pushSucceeded (start : ℚ) (_st : PushBackoff) : PushBackoff :=
  { backoff := some start, nextAllowed := some 0 }

/-- Outcome of one push attempt, as observed by the backoff bookkeeping. -/
inductive PushEvent where
  | fail (now : ℚ)
  | success
deriving DecidableEq

/-- One bookkeeping step of the git worker for a fixed repository. -/
def pushStep (start maxB : ℚ) (st : PushBackoff) (e : PushEvent) :
    PushBackoff :=
  match e with
  | .fail now => registerPushFailure start maxB now st
  | .success => pushSucceeded start st

/-- Backoff bookkeeping after a history of push outcomes, starting from
the empty dicts. -/
def pushRun (start maxB : ℚ) (evs : List PushEvent) : PushBackoff :=
  evs.foldl (pushStep start maxB) ⟨none, none⟩

/-- The chain of backoff values produced by consecutive registered
failures, starting from the `dict.get` default `start`. -/
def backoffIter (start maxB : ℚ) : ℕ → ℚ
  | 0 => start
  | n + 1 => min (max (backoffIter start maxB n) start * 2) maxB

theorem backoffIter_bounds (start maxB : ℚ) (h : start ≤ maxB)
    (h0 : 0 ≤ start) :
    ∀ n, start ≤ backoffIter start maxB n ∧ backoffIter start maxB n ≤ maxB := by
  intro n
  induction n with
  | zero => exact ⟨le_refl _, h⟩
  | succ n ih =>
    obtain ⟨hs, hm⟩ := ih
    constructor
    · refine le_min ?_ h
      calc start ≤ start * 2 := by nlinarith
        _ ≤ max (backoffIter start maxB n) start * 2 := by
            have := le_max_right (backoffIter start maxB n) start
            nlinarith
    · exact min_le_right _ _

theorem backoffIter_mono_of_nonneg (start maxB : ℚ) (h : start ≤ maxB)
    (h0 : 0 ≤ start) (n : ℕ) :
    backoffIter start maxB n ≤ backoffIter start maxB (n + 1) := by
  obtain ⟨hs, hm⟩ := backoffIter_bounds start maxB h h0 n
  show backoffIter start maxB n ≤ min (max (backoffIter start maxB n) start * 2) maxB
  refine le_min ?_ hm
  have hmax : max (backoffIter start maxB n) start = backoffIter start maxB n :=
    max_eq_left hs
  rw [hmax]
  nlinarith [hs, h0]

theorem backoffIter_neg_const (start maxB : ℚ) (h : start ≤ maxB)
    (h0 : start < 0) :
    ∀ n, 1 ≤ n → backoffIter start maxB n = start * 2 := by
  intro n hn
  induction n with
  | zero => omega
  | succ n ih =>
    by_cases h1 : 1 ≤ n
    · show min (max (backoffIter start maxB n) start * 2) maxB = start * 2
      rw [ih h1]
      have hms : max (start * 2) start = start := max_eq_right (by nlinarith)
      rw [hms]
      exact min_eq_left (by nlinarith)
    · have hn0 : n = 0 := by omega
      subst hn0
      show min (max (backoffIter start maxB 0) start * 2) maxB = start * 2
      show min (max start start * 2) maxB = start * 2
      rw [max_self]
      exact min_eq_left (by nlinarith)

theorem backoffIter_mono (start maxB : ℚ) (h : start ≤ maxB) (n : ℕ)
    (hn : 1 ≤ n) :
    backoffIter start maxB n ≤ backoffIter start maxB (n + 1) := by
  by_cases h0 : 0 ≤ start
  · exact backoffIter_mono_of_nonneg start maxB h h0 n
  · push_neg at h0
    rw [backoffIter_neg_const start maxB h h0 n hn,
      backoffIter_neg_const start maxB h h0 (n + 1) (by omega)]

theorem pushRun_backoff_shape (start maxB : ℚ) (evs : List PushEvent) :
    (pushRun start maxB evs).backoff = none ∨
      ∃ n, (pushRun start maxB evs).backoff = some (backoffIter start maxB n) := by
  suffices h : ∀ (st : PushBackoff),
      (st.backoff = none ∨ ∃ n, st.backoff = some (backoffIter start maxB n)) →
      ((evs.foldl (pushStep start maxB) st).backoff = none ∨
        ∃ n, (evs.foldl (pushStep start maxB) st).backoff
          = some (backoffIter start maxB n)) by
    exact h ⟨none, none⟩ (Or.inl rfl)
  induction evs with
  | nil => intro st hst; simpa using hst
  | cons e rest ih =>
    intro st hst
    rw [List.foldl_cons]
    apply ih
    right
    cases e with
    | success => exact ⟨0, rfl⟩
    | fail now =>
      rcases hst with h1 | ⟨n, h1⟩
      · refine ⟨1, ?_⟩
        simp [pushStep, registerPushFailure, h1, backoffIter]
      · refine ⟨n + 1, ?_⟩
        simp [pushStep, registerPushFailure, h1, backoffIter]

/-- **C8.** A registered push failure sets the backoff to
`min(max(current, start) * 2, max)` and the next-allowed time to
`now + backoff`; a successful push resets the backoff to `start` and
clears the next-allowed time to 0; and whenever `start ≤ max`, across
any two consecutive failures following an arbitrary event history the
stored backoff is non-decreasing. -/
theorem push_backoff_law (start maxB now now' : ℚ) (h : start ≤ maxB)
    (evs : List PushEvent) :
    (∀ st : PushBackoff,
      (registerPushFailure start maxB now st).backoff
          = some (min (max (st.backoff.getD start) start * 2) maxB) ∧
        (registerPushFailure start maxB now st).nextAllowed
          = some (now + min (max (st.backoff.getD start) start * 2) maxB)) ∧
    (∀ st : PushBackoff,
      (pushSucceeded start st).backoff = some start ∧
        (pushSucceeded start st).nextAllowed = some 0) ∧
    ((pushStep start maxB (pushRun start maxB evs) (.fail now)).backoff.getD start
      ≤ (pushStep start maxB
          (pushStep start maxB (pushRun start maxB evs) (.fail now))
          (.fail now')).backoff.getD start) := by
  refine ⟨fun st => ⟨rfl, rfl⟩, fun st => ⟨rfl, rfl⟩, ?_⟩
  have hb1 : (pushStep start maxB (pushRun start maxB evs) (.fail now)).backoff
      = some (min (max ((pushRun start maxB evs).backoff.getD start) start * 2)
          maxB) := rfl
  have hb2 : (pushStep start maxB
        (pushStep start maxB (pushRun start maxB evs) (.fail now))
        (.fail now')).backoff
      = some (min (max ((pushStep start maxB (pushRun start maxB evs)
            (.fail now)).backoff.getD start) start * 2) maxB) := rfl
  rw [hb2, hb1]
  simp only [Option.getD_some]
  rcases pushRun_backoff_shape start maxB evs with h1 | ⟨n, h1⟩
  · rw [h1]
    simp only [Option.getD_none]
    show backoffIter start maxB 1 ≤ backoffIter start maxB 2
    exact backoffIter_mono start maxB h 1 (by omega)
  · rw [h1]
    simp only [Option.getD_some]
    show backoffIter start maxB (n + 1) ≤ backoffIter start maxB (n + 2)
    exact backoffIter_mono start maxB h (n + 1) (by omega)

/-- Witness for `push_backoff_law`: `start = 1`, `max = 4`, empty
history; two consecutive failures go from backoff 2 to backoff 4. -/
theorem push_backoff_law_witness :
    (∀ st : PushBackoff,
      (registerPushFailure 1 4 0 st).backoff
          = some (min (max (st.backoff.getD 1) 1 * 2) 4) ∧
        (registerPushFailure 1 4 0 st).nextAllowed
          = some (0 + min (max (st.backoff.getD 1) 1 * 2) 4)) ∧
    (∀ st : PushBackoff,
      (pushSucceeded 1 st).backoff = some 1 ∧
        (pushSucceeded 1 st).nextAllowed = some 0) ∧
    ((pushStep 1 4 (pushRun 1 4 []) (.fail 0)).backoff.getD 1
      ≤ (pushStep 1 4 (pushStep 1 4 (pushRun 1 4 []) (.fail 0))
          (.fail 0)).backoff.getD 1) :=
  push_backoff_law 1 4 0 0 (by norm_num) []

/-! ## Module Manager: the per-event pipeline

Embeds `ModuleManager.run` from `src/lucy_notes_manager/module_manager.py`.

A module is modelled by its `name` together with the list of attribute
names defined in its own class body (`module.__class__.__dict__`), which
is what the dispatch check `event.event_type not in
module.__class__.__dict__` consults.  The handler bodies themselves are
abstracted into a parameter
`invoke : String → String → Option (List (String × Int))` mapping the
module name and the `Context.path` it receives to the returned change
map (`None` or an insertion-ordered dict); the `config`/`arg_lines`
parts of the `Context` are functions of that same path, re-read by the
`_update_config` closure.

The embedding keeps the Python scoping of `run` faithfully: the loop
`for path, times in event_ignore.items():` rebinds the *function
parameter* `path`, so after a module returns a non-empty change map the
variable `path` holds the last key of that map; both the subsequent
`_update_config()` re-parse and every later `Context(path=path, ...)`
use the rebound value.  The embedding additionally records a trace of
handler invocations `(module name, Context.path)` and of the paths used
by the between-module `_update_config()` re-parses. -/

/-- A pipeline module: its `name` attribute and the attribute names of
its own class `__dict__`. -/
structure PyModule where
  name : String
  classDict : List String
deriving DecidableEq

/-- Run state of one `ModuleManager.run` call: the current value of the
(rebindable) `path` variable, the accumulated `ignore_paths` dict, and
the instrumentation traces. -/
structure MmState where
  path : String
  ignorePaths : List (String × Int)
  calls : List (String × String)
  reparsePaths : List String
deriving DecidableEq

/-- The inner `for path, times in event_ignore.items():` loop: each
iteration rebinds `path` to the item's key; items with falsy `times`
are skipped for accumulation but still rebind `path`. -/
def runItemsLoop (ignorePaths : List (String × Int))
    (items : List (String × Int)) (path : String) :
    List (String × Int) × String :=
  match items with
  | [] => (ignorePaths, path)
  | (p, t) :: rest =>
    if t == 0 then runItemsLoop ignorePaths rest p
    else runItemsLoop (dictSet ignorePaths p (dictGet ignorePaths p 0 + t)) rest p

/-- One iteration of the `for module in self.modules:` loop of
`ModuleManager.run`. -/
def mmStepModule (invoke : String → String → Option (List (String × Int)))
    (exclude force : List String) (eventType : String)
    (st : MmState) (m : PyModule) : MmState :=
  if exclude.contains m.name && !(force.contains m.name) then st
  else if !(m.classDict.contains eventType) then st
  else
    let st1 : MmState := { st with calls := st.calls ++ [(m.name, st.path)] }
    match invoke m.name st.path with
    | none => st1
    | some items =>
      if items.isEmpty then st1
      else
        let pr := runItemsLoop st1.ignorePaths items st1.path
        { st1 with
          path := pr.2
          ignorePaths := pr.1
          reparsePaths := st1.reparsePaths ++ [pr.2] }

/-- `ModuleManager.run(path, event)`: the module loop followed by
`return ignore_paths or None`. -/
def mmRun (invoke : String → String → Option (List (String × Int)))
    (exclude force : List String) (modules : List PyModule)
    (eventType path : String) :
    Option (List (String × Int)) × List (String × String) × List String :=
  let st := modules.foldl (mmStepModule invoke exclude force eventType)
    ⟨path, [], [], []⟩
  (if st.ignorePaths.isEmpty then none else some st.ignorePaths,
    st.calls, st.reparsePaths)

/-- `AbstractModule`'s own class dict (handler-relevant names), from
`src/lucy_notes_manager/modules/abstract_module.py`: the open-event
handler it declares is named `on_opened`, not `opened`. -/
def abstractModuleDict : List String :=
  ["name", "priority", "template", "created", "modified", "moved", "deleted",
    "on_opened"]

/-- The registered module set of `src/main.py` (`MODULES`), in the order
produced by the priority sort of `ModuleManager.__init__` with default
priorities, each with the attribute names its own class body defines. -/
def registeredModules : List PyModule :=
  [⟨"sys", ["name", "priority", "template", "_defaults_map", "_build_block",
      "_apply", "created", "modified", "moved", "deleted"]⟩,
    ⟨"banner", ["name", "priority", "template", "_apply", "created",
      "modified", "moved"]⟩,
    ⟨"todo", ["name", "priority", "template", "_apply", "created",
      "modified", "moved"]⟩,
    ⟨"renamer", ["name", "priority", "template", "_apply_manual",
      "_apply_auto_on_create", "created", "modified", "moved"]⟩,
    ⟨"plasma_sync", ["name", "priority", "template", "created", "modified",
      "moved", "deleted", "_cfg", "_handle", "_from_markdown",
      "_from_main_plasma", "_from_bold_mirror"]⟩,
    ⟨"cmd", ["name", "priority", "template", "_collect_runs", "_to_str",
      "_clip", "_run_cmd", "_build_block", "_apply", "created", "modified",
      "moved", "deleted"]⟩]

theorem mmStepModule_skip (invoke : String → String → Option (List (String × Int)))
    (exclude force : List String) (eventType : String)
    (st : MmState) (m : PyModule)
    (h : m.classDict.contains eventType = false) :
    mmStepModule invoke exclude force eventType st m = st := by
  unfold mmStepModule
  split
  · rfl
  · rw [h]
    rfl

/-- **C10.** For an `opened` event dispatched to `ModuleManager.run`
with the registered module set, no module handler is invoked (the
invocation trace is empty, whatever the handlers would do and whatever
the exclude/force configuration is) and `run` returns `None`; indeed no
registered module defines a method named `opened` in its own class
dict, and `AbstractModule`'s open handler is named `on_opened`. -/
theorem opened_event_never_dispatches
    (invoke : String → String → Option (List (String × Int)))
    (exclude force : List String) (path : String) :
    (mmRun invoke exclude force registeredModules "opened" path).1 = none ∧
      (mmRun invoke exclude force registeredModules "opened" path).2.1 = [] ∧
      registeredModules.all
        (fun m => !(m.classDict.contains "opened")) = true ∧
      abstractModuleDict.contains "on_opened" = true ∧
      abstractModuleDict.contains "opened" = false := by
  refine ⟨?_, ?_, by decide, by decide, by decide⟩ <;>
  · show _ = _
    unfold mmRun registeredModules
    rw [List.foldl_cons, mmStepModule_skip _ _ _ _ _ _ (by decide)]
    rw [List.foldl_cons, mmStepModule_skip _ _ _ _ _ _ (by decide)]
    rw [List.foldl_cons, mmStepModule_skip _ _ _ _ _ _ (by decide)]
    rw [List.foldl_cons, mmStepModule_skip _ _ _ _ _ _ (by decide)]
    rw [List.foldl_cons, mmStepModule_skip _ _ _ _ _ _ (by decide)]
    rw [List.foldl_cons, mmStepModule_skip _ _ _ _ _ _ (by decide)]
    rfl

/-- **C2 (violation).** `ModuleManager.run` does not pass the triggering
path to every module: with two modules handling `modified`, where the
first returns the change map `{"q": 1}` for triggering path `"p"`, the
second module's `Context.path` is `"q"`, and the between-module
re-parse of directives also reads from `"q"`.  This contradicts both
the specification (`run` step 1/4c: Context carries the triggering
`path`) and the `Context` docstring in `abstract_module.py`
("path: absolute file path (event.src_path ...)"): the loop
`for path, times in event_ignore.items():` rebinds the function
parameter `path`. -/
theorem run_rebinds_path_counterexample :
    (mmRun
        (fun name _ => if name == "m1" then some [("q", 1)] else none)
        [] [] [⟨"m1", ["modified"]⟩, ⟨"m2", ["modified"]⟩]
        "modified" "p").2.1 = [("m1", "p"), ("m2", "q")] ∧
      (mmRun
        (fun name _ => if name == "m1" then some [("q", 1)] else none)
        [] [] [⟨"m1", ["modified"]⟩, ⟨"m2", ["modified"]⟩]
        "modified" "p").2.2 = ["q"] ∧
      ("q" : String) ≠ "p" := by
  refine ⟨?_, ?_, by decide⟩ <;> rfl

/-! ## File Event Handler: open-event throttle

Embeds `FileHandler._should_process_open` and
`FileHandler._cleanup_open_cache_oldest_n` from
`src/lucy_notes_manager/file_handler.py`, with the constructor constants
`_cleanup_every_open_events = 200` and `_cleanup_remove_count = 100`.
The monotonic clock (`time.monotonic()`) is modelled as a rational;
`self._last_open_ts` is an insertion-ordered dict from path to
timestamp; Python's stable `sorted` is modelled by `List.mergeSort`. -/

/-- Throttle state: `_last_open_ts` and `_opened_events_seen`. -/
structure OpenThrottle where
  lastOpenTs : List (String × ℚ)
  openedEventsSeen : ℕ
deriving DecidableEq

/-- `FileHandler._cleanup_open_cache_oldest_n`: if the cache is nonempty,
stably sort its items by timestamp, take the `min(100, len)` oldest and
delete each of their keys. -/
def cleanupOpenCacheOldestN (cache : List (String × ℚ)) :
    List (String × ℚ) :=
  if cache.isEmpty then cache
  else
    let n := min 100 cache.length
    let oldest := (cache.mergeSort (fun a b => a.2 ≤ b.2)).take n
    oldest.foldl (fun c kv => dictDel c kv.1) cache

/-- `FileHandler._should_process_open(file_path)`: return `true`
(process) or `false` (drop) and the successor state.  The counter
`_opened_events_seen` is incremented for *every* call with positive
cooldown — before the drop decision — and triggers a cleanup at each
multiple of 200; only afterwards is the per-path cooldown consulted on
the (possibly cleaned) cache. -/
def shouldProcessOpen (cooldown : ℚ) (st : OpenThrottle) (path : String)
    (now : ℚ) : Bool × OpenThrottle :=
  if cooldown ≤ 0 then (true, st)
  else
    let seen := st.openedEventsSeen + 1
    let cache :=
      if seen % 200 == 0 then cleanupOpenCacheOldestN st.lastOpenTs
      else st.lastOpenTs
    let last := dictGet cache path 0
    if now - last < cooldown then (false, ⟨cache, seen⟩)
    else (true, ⟨dictSet cache path now, seen⟩)

/-- One opened event through the throttle, also counting whether it was
accepted (processed). -/
def openTraceStep (cooldown : ℚ) (acc : OpenThrottle × ℕ)
    (ev : String × ℚ) : OpenThrottle × ℕ :=
  let r := shouldProcessOpen cooldown acc.1 ev.1 ev.2
  (r.2, acc.2 + (if r.1 then 1 else 0))

/-- Fold a list of `(path, now)` opened events through the throttle,
also counting how many events were accepted (processed). -/
def openTraceRun (cooldown : ℚ) (evs : List (String × ℚ)) :
    OpenThrottle × ℕ :=
  evs.foldl (openTraceStep cooldown) (⟨[], 0⟩, 0)

/-- Concrete 200-event opened trace with cooldown 5: two distinct paths
accepted, then 198 throttled repeats of the same path. -/
def c6Trace : List (String × ℚ) :=
  [("b", 10), ("a", 11)] ++ List.replicate 198 ("a", 12)

/-- Generic helper: deleting an absent key is the identity. -/
theorem dictDel_of_not_mem_keys {β : Type} (m : List (String × β))
    (k : String) (h : k ∉ m.map Prod.fst) : dictDel m k = m := by
  induction m with
  | nil => rfl
  | cons kv0 rest ih =>
    rw [List.map_cons] at h
    have h1 : (kv0.1 == k) = false := by
      simp only [beq_eq_false_iff_ne, ne_eq]
      exact fun he => h (he ▸ List.mem_cons_self _ _)
    simp only [dictDel, h1, Bool.false_eq_true, if_false]
    rw [ih (fun hm => h (List.mem_cons_of_mem _ hm))]

/-- With pairwise-distinct keys, deleting key `k` keeps exactly the
entries whose key differs from `k`. -/
theorem dictDel_eq_filter {β : Type} (m : List (String × β)) (k : String)
    (h : KeysNodup m) :
    dictDel m k = m.filter (fun kv => !(kv.1 == k)) := by
  induction m with
  | nil => rfl
  | cons kv0 rest ih =>
    rcases List.nodup_cons.1 h with ⟨hk, hrest⟩
    cases hb : (kv0.1 == k) with
    | true =>
      have hkk : kv0.1 = k := beq_iff_eq.1 hb
      simp only [dictDel, hb, if_true, List.filter_cons, Bool.not_true,
        Bool.false_eq_true, if_false]
      symm
      rw [List.filter_eq_self]
      intro kv hkv
      simp only [Bool.not_eq_true', beq_eq_false_iff_ne, ne_eq]
      exact fun he => hk (hkk ▸ he ▸ List.mem_map_of_mem _ hkv)
    | false =>
      simp only [dictDel, hb, Bool.false_eq_true, if_false, List.filter_cons,
        Bool.not_false, if_true]
      rw [ih hrest]

theorem keys_filter_subset {β : Type} (m : List (String × β))
    (p : String × β → Bool) :
    ∀ s ∈ (m.filter p).map Prod.fst, s ∈ m.map Prod.fst := by
  intro s hs
  rcases List.mem_map.1 hs with ⟨kv, hkv, rfl⟩
  exact List.mem_map_of_mem _ (List.mem_of_mem_filter hkv)

theorem keysNodup_filter {β : Type} (m : List (String × β))
    (p : String × β → Bool) (h : KeysNodup m) : KeysNodup (m.filter p) := by
  induction m with
  | nil => exact h
  | cons kv0 rest ih =>
    rcases List.nodup_cons.1 h with ⟨hk, hrest⟩
    rw [List.filter_cons]
    cases hp : p kv0 with
    | true =>
      simp only [if_true]
      refine List.nodup_cons.2 ⟨fun hc => hk ?_, ih hrest⟩
      exact keys_filter_subset rest p _ hc
    | false => simpa using ih hrest

/-- Folding `dictDel` over a list of entries removes exactly the entries
whose key occurs among the deleted keys (keys pairwise distinct). -/
theorem foldl_dictDel_eq_filter {β : Type} (xs : List (String × β))
    (m : List (String × β)) (h : KeysNodup m) :
    xs.foldl (fun c kv => dictDel c kv.1) m
      = m.filter (fun kv => !((xs.map Prod.fst).contains kv.1)) := by
  induction xs generalizing m with
  | nil => simp
  | cons x rest ih =>
    rw [List.foldl_cons, ih (dictDel m x.1) (keysNodup_dictDel m x.1 h),
      dictDel_eq_filter m x.1 h, List.filter_filter]
    congr 1
    funext kv
    simp only [List.map_cons, List.contains_cons]
    cases hb : (kv.1 == x.1) with
    | true =>
      have : (x.1 == kv.1) = true := by
        rw [beq_iff_eq] at hb ⊢; exact hb.symm
      simp [this, hb]
    | false =>
      have : (x.1 == kv.1) = false := by
        rw [beq_eq_false_iff_ne] at hb ⊢; exact fun he => hb he.symm
      simp [this, hb]

/-- Correctness of `_cleanup_open_cache_oldest_n` on a dict with
pairwise-distinct keys: it removes exactly `min 100 len` entries, keeps
only original entries, and every removed entry's timestamp is at most
every surviving entry's timestamp (the oldest are evicted). -/
theorem cleanup_removes_min (c : List (String × ℚ)) (h : KeysNodup c) :
    (cleanupOpenCacheOldestN c).length = c.length - min 100 c.length ∧
    (∀ kv ∈ cleanupOpenCacheOldestN c, kv ∈ c) ∧
    (∀ kv ∈ c, kv ∉ cleanupOpenCacheOldestN c →
      ∀ kv' ∈ cleanupOpenCacheOldestN c, kv.2 ≤ kv'.2) := by
  cases hemp : c.isEmpty with
  | true =>
    have hnil : c = [] := List.isEmpty_iff.1 hemp
    subst hnil
    refine ⟨by simp [cleanupOpenCacheOldestN], by simp [cleanupOpenCacheOldestN], ?_⟩
    intro kv hkv
    exact absurd hkv (List.not_mem_nil kv)
  | false =>
    have hcl : cleanupOpenCacheOldestN c
        = ((c.mergeSort (fun a b => decide (a.2 ≤ b.2))).take
            (min 100 c.length)).foldl (fun m kv => dictDel m kv.1) c := by
      simp only [cleanupOpenCacheOldestN, hemp, Bool.false_eq_true, if_false]
    have hperm : (c.mergeSort (fun a b => decide (a.2 ≤ b.2))).Perm c :=
      List.mergeSort_perm c _
    have hsorted : List.Pairwise
        (fun a b => (fun a b : String × ℚ => decide (a.2 ≤ b.2)) a b = true)
        (c.mergeSort (fun a b => decide (a.2 ≤ b.2))) := by
      refine List.sorted_mergeSort ?_ ?_ c
      · intro a b c' h1 h2
        simp only [decide_eq_true_eq] at h1 h2 ⊢
        exact le_trans h1 h2
      · intro a b
        simp only [Bool.or_eq_true, decide_eq_true_eq]
        exact le_total a.2 b.2
    set s : List (String × ℚ) := c.mergeSort (fun a b => decide (a.2 ≤ b.2))
      with hsdef
    set n : ℕ := min 100 c.length with hndef
    set t : List (String × ℚ) := s.take n with htdef
    set d : List (String × ℚ) := s.drop n with hddef
    have htd : t ++ d = s := List.take_append_drop n s
    have hnodupS : (s.map Prod.fst).Nodup :=
      ((hperm.map Prod.fst).nodup_iff).2 h
    have hdisj : ∀ x ∈ t.map Prod.fst, x ∉ d.map Prod.fst := by
      rw [← htd] at hnodupS
      rw [List.map_append] at hnodupS
      exact fun x hx => (List.nodup_append.1 hnodupS).2.2 hx
    have hcross : ∀ x ∈ t, ∀ y ∈ d, x.2 ≤ y.2 := by
      rw [← htd] at hsorted
      intro x hx y hy
      have := (List.pairwise_append.1 hsorted).2.2 x hx y hy
      simpa using this
    have hcontF : ∀ kv ∈ d, ((t.map Prod.fst).contains kv.1) = false := by
      intro kv hkv
      cases hcont : (t.map Prod.fst).contains kv.1 with
      | false => rfl
      | true =>
        have hmemT : kv.1 ∈ t.map Prod.fst := List.elem_iff.1 hcont
        exact absurd (List.mem_map_of_mem Prod.fst hkv) (hdisj kv.1 hmemT)
    have hkept : cleanupOpenCacheOldestN c
        = c.filter (fun kv => !((t.map Prod.fst).contains kv.1)) := by
      rw [hcl]
      exact foldl_dictDel_eq_filter t c h
    have hfiltTake : t.filter
        (fun kv => !((t.map Prod.fst).contains kv.1)) = [] := by
      rw [List.filter_eq_nil]
      intro kv hkv
      have hc : ((t.map Prod.fst).contains kv.1) = true :=
        List.elem_iff.2 (List.mem_map_of_mem Prod.fst hkv)
      simp only [hc, Bool.not_true, Bool.false_eq_true, not_false_eq_true]
    have hfiltDrop : d.filter
        (fun kv => !((t.map Prod.fst).contains kv.1)) = d := by
      rw [List.filter_eq_self]
      intro kv hkv
      simp only [hcontF kv hkv, Bool.not_false]
    have hsplit : s.filter (fun kv => !((t.map Prod.fst).contains kv.1)) = d := by
      rw [← htd, List.filter_append, hfiltTake, hfiltDrop, List.nil_append]
    have hkeptPerm : (cleanupOpenCacheOldestN c).Perm d := by
      rw [hkept, ← hsplit]
      exact (hperm.filter _).symm
    refine ⟨?_, ?_, ?_⟩
    · rw [hkeptPerm.length_eq, hddef, List.length_drop, hperm.length_eq]
    · intro kv hkv
      rw [hkept] at hkv
      exact List.mem_of_mem_filter hkv
    · intro kv hkvC hkvNot kv' hkv'
      have hPkv : (fun kv : String × ℚ =>
          !((t.map Prod.fst).contains kv.1)) kv = false := by
        cases hP : (fun kv : String × ℚ =>
            !((t.map Prod.fst).contains kv.1)) kv with
        | false => rfl
        | true =>
          exact absurd (hkept ▸ List.mem_filter.2 ⟨hkvC, hP⟩) hkvNot
      have hkvKeys : kv.1 ∈ t.map Prod.fst := by
        simp only [Bool.not_eq_false'] at hPkv
        exact List.elem_iff.1 hPkv
      have hkvS : kv ∈ s := hperm.mem_iff.2 hkvC
      have hkvT : kv ∈ t := by
        rw [← htd] at hkvS
        rcases List.mem_append.1 hkvS with h1 | h1
        · exact h1
        · exact absurd hkvKeys (fun hc =>
            hdisj kv.1 hc (List.mem_map_of_mem Prod.fst h1))
      have hkv'D : kv' ∈ d := hkeptPerm.mem_iff.1 hkv'
      exact hcross kv hkvT kv' hkv'D

/-- **C6 (amended).** For an opened event with cooldown > 0:
the event is dropped iff `now` minus the cache entry for the path
(consulted on the cache *after* any triggered cleanup, defaulting to 0)
is below the cooldown, and on acceptance `now` is recorded for the
path; the `_opened_events_seen` counter is incremented for every
examined opened event (accepted or dropped), and the cleanup — removing
the `min(100, size)` entries with the oldest timestamps — runs exactly
when that counter reaches a multiple of 200. -/
theorem open_throttle_law (cooldown now : ℚ) (st : OpenThrottle)
    (path : String) (hcd : 0 < cooldown) (hnd : KeysNodup st.lastOpenTs) :
    (((shouldProcessOpen cooldown st path now).1 = false ↔
        now - dictGet (if (st.openedEventsSeen + 1) % 200 == 0
            then cleanupOpenCacheOldestN st.lastOpenTs
            else st.lastOpenTs) path 0 < cooldown) ∧
      (shouldProcessOpen cooldown st path now).2.openedEventsSeen
        = st.openedEventsSeen + 1 ∧
      ((shouldProcessOpen cooldown st path now).1 = true →
        (shouldProcessOpen cooldown st path now).2.lastOpenTs
          = dictSet (if (st.openedEventsSeen + 1) % 200 == 0
              then cleanupOpenCacheOldestN st.lastOpenTs
              else st.lastOpenTs) path now) ∧
      ((shouldProcessOpen cooldown st path now).1 = false →
        (shouldProcessOpen cooldown st path now).2.lastOpenTs
          = (if (st.openedEventsSeen + 1) % 200 == 0
              then cleanupOpenCacheOldestN st.lastOpenTs
              else st.lastOpenTs))) ∧
    ((cleanupOpenCacheOldestN st.lastOpenTs).length
        = st.lastOpenTs.length - min 100 st.lastOpenTs.length ∧
      (∀ kv ∈ cleanupOpenCacheOldestN st.lastOpenTs, kv ∈ st.lastOpenTs) ∧
      (∀ kv ∈ st.lastOpenTs, kv ∉ cleanupOpenCacheOldestN st.lastOpenTs →
        ∀ kv' ∈ cleanupOpenCacheOldestN st.lastOpenTs, kv.2 ≤ kv'.2)) := by
  have hncd : ¬ cooldown ≤ 0 := not_le.2 hcd
  constructor
  · cases hmod : ((st.openedEventsSeen + 1) % 200 == 0) with
    | true =>
      by_cases hdrop :
          now - dictGet (cleanupOpenCacheOldestN st.lastOpenTs) path 0
            < cooldown <;>
        refine ⟨?_, ?_, ?_, ?_⟩ <;>
          simp [shouldProcessOpen, hncd, hmod, hdrop]
    | false =>
      by_cases hdrop : now - dictGet st.lastOpenTs path 0 < cooldown <;>
        refine ⟨?_, ?_, ?_, ?_⟩ <;>
          simp [shouldProcessOpen, hncd, hmod, hdrop]
  · exact cleanup_removes_min st.lastOpenTs hnd

theorem openTraceStep_drop_c6 (j : ℕ) (acc : ℕ)
    (hj : (j + 1) % 200 ≠ 0) :
    openTraceStep 5 (⟨[("b", 10), ("a", 11)], j⟩, acc) ("a", 12)
      = (⟨[("b", 10), ("a", 11)], j + 1⟩, acc) := by
  have hmod : ((j + 1) % 200 == 0) = false := by
    simpa using hj
  have hget : dictGet [("b", (10 : ℚ)), ("a", 11)] "a" 0 = 11 := by rfl
  have hcmp : (12 : ℚ) - 11 < 5 := by norm_num
  simp [openTraceStep, shouldProcessOpen, hmod, hget, hcmp]
  norm_num

theorem openTraceRep_drop_c6 (k : ℕ) :
    ∀ (j acc : ℕ), 2 ≤ j → j + k ≤ 199 →
    (List.replicate k ("a", (12 : ℚ))).foldl (openTraceStep 5)
        (⟨[("b", 10), ("a", 11)], j⟩, acc)
      = (⟨[("b", 10), ("a", 11)], j + k⟩, acc) := by
  induction k with
  | zero => intro j acc _ _; simp
  | succ k ih =>
    intro j acc hj2 hjk
    rw [List.replicate_succ, List.foldl_cons]
    rw [openTraceStep_drop_c6 j acc (by omega)]
    rw [ih (j + 1) acc (by omega) (by omega)]
    have harith : j + 1 + k = j + (k + 1) := by omega
    rw [harith]

/-- **C6 (violation of the claim as stated).** The cleanup counter
counts every examined opened event, not only accepted ones: running
`c6Trace` (cooldown 5) accepts only 3 of its 200 events, so the count
of accepted opened events never reaches a multiple of W = 200; yet at
the 200th examined event a cleanup fires and evicts the entry for path
`"b"` from the throttle cache — and that 200th event on `"a"`, which
per the claim should be dropped (it is 1 second after the last
accepted open of `"a"`, far within the 5-second cooldown), is in fact
accepted, because the eviction also removed `"a"`.  Under the claim's
reading no eviction may happen and `"b"` would survive. -/
theorem open_throttle_counter_counterexample :
    (openTraceRun 5 c6Trace).2 = 3 ∧
      (openTraceRun 5 c6Trace).1.openedEventsSeen = 200 ∧
      dictMem (openTraceRun 5 c6Trace).1.lastOpenTs "b" = false := by
  have h1 : openTraceStep 5 ((⟨[], 0⟩ : OpenThrottle), 0) ("b", 10)
      = (⟨[("b", 10)], 1⟩, 1) := by
    have hcmp : ¬ ((10 : ℚ) - 0 < 5) := by norm_num
    simp [openTraceStep, shouldProcessOpen, dictGet, List.find?, dictSet, hcmp]
    and_intros <;> first | rfl | norm_num
  have h2 : openTraceStep 5 ((⟨[("b", 10)], 1⟩ : OpenThrottle), 1) ("a", 11)
      = (⟨[("b", 10), ("a", 11)], 2⟩, 2) := by
    have hget : dictGet [("b", (10 : ℚ))] "a" 0 = 0 := by rfl
    have hcmp : ¬ ((11 : ℚ) - 0 < 5) := by norm_num
    simp [openTraceStep, shouldProcessOpen, hget, hcmp]
    and_intros <;> first | rfl | norm_num
  have hclean : cleanupOpenCacheOldestN [("b", 10), ("a", 11)] = [] := by
    have hnd : KeysNodup [("b", (10 : ℚ)), ("a", 11)] := by
      simp [KeysNodup]
    have hlen := (cleanup_removes_min [("b", 10), ("a", 11)] hnd).1
    simp at hlen
    exact hlen
  have h3 : openTraceStep 5 ((⟨[("b", 10), ("a", 11)], 199⟩ : OpenThrottle), 2)
      ("a", 12) = (⟨[("a", 12)], 200⟩, 3) := by
    have hmod : ((199 + 1) % 200 == 0) = true := by rfl
    have hget : dictGet ([] : List (String × ℚ)) "a" 0 = 0 := by rfl
    have hcmp : ¬ ((12 : ℚ) - 0 < 5) := by norm_num
    simp [openTraceStep, shouldProcessOpen, hmod, hclean, hget, hcmp]
    and_intros <;> first | rfl | norm_num
  have hrep : List.replicate 198 ("a", (12 : ℚ))
      = List.replicate 197 ("a", (12 : ℚ)) ++ [("a", 12)] := by
    rw [← List.replicate_succ']
  have hrun : openTraceRun 5 c6Trace = (⟨[("a", 12)], 200⟩, 3) := by
    unfold openTraceRun c6Trace
    rw [List.foldl_append, List.foldl_cons, List.foldl_cons, List.foldl_nil]
    rw [h1, h2, hrep, List.foldl_append]
    rw [openTraceRep_drop_c6 197 2 2 (by omega) (by omega)]
    rw [List.foldl_cons, List.foldl_nil]
    exact h3
  rw [hrun]
  refine ⟨rfl, rfl, by rfl⟩

/-- Witness for `open_throttle_law` at cooldown 5, cache `{a ↦ 3}`,
counter 41, event `("a", 4)`. -/
theorem open_throttle_law_witness :
    (((shouldProcessOpen 5 ⟨[("a", 3)], 41⟩ "a" 4).1 = false ↔
        4 - dictGet (if (41 + 1) % 200 == 0
            then cleanupOpenCacheOldestN [("a", 3)]
            else [("a", 3)]) "a" 0 < 5) ∧
      (shouldProcessOpen 5 ⟨[("a", 3)], 41⟩ "a" 4).2.openedEventsSeen
        = 41 + 1 ∧
      ((shouldProcessOpen 5 ⟨[("a", 3)], 41⟩ "a" 4).1 = true →
        (shouldProcessOpen 5 ⟨[("a", 3)], 41⟩ "a" 4).2.lastOpenTs
          = dictSet (if (41 + 1) % 200 == 0
              then cleanupOpenCacheOldestN [("a", 3)]
              else [("a", 3)]) "a" 4) ∧
      ((shouldProcessOpen 5 ⟨[("a", 3)], 41⟩ "a" 4).1 = false →
        (shouldProcessOpen 5 ⟨[("a", 3)], 41⟩ "a" 4).2.lastOpenTs
          = (if (41 + 1) % 200 == 0
              then cleanupOpenCacheOldestN [("a", 3)]
              else [("a", 3)]))) ∧
    ((cleanupOpenCacheOldestN [("a", 3)]).length
        = [("a", (3 : ℚ))].length - min 100 [("a", (3 : ℚ))].length ∧
      (∀ kv ∈ cleanupOpenCacheOldestN [("a", 3)], kv ∈ [("a", (3 : ℚ))]) ∧
      (∀ kv ∈ [("a", (3 : ℚ))], kv ∉ cleanupOpenCacheOldestN [("a", 3)] →
        ∀ kv' ∈ cleanupOpenCacheOldestN [("a", 3)], kv.2 ≤ kv'.2)) :=
  open_throttle_law 5 4 ⟨[("a", 3)], 41⟩ "a" (by norm_num)
    (by simp [KeysNodup])

/-! ## Python string helpers

Shared models of the Python `str` methods the synchronizer uses.
Python whitespace (`str.strip`, `str.isspace`) is modelled by its ASCII
subset, which is all the synchronizer's data ever contains. -/

/-- Python whitespace characters (ASCII subset). -/
def pyIsSpace (c : Char) : Bool :=
  c == ' ' || c == '\t' || c == '\n' || c == '\x0d' ||
    c == '\x0b' || c == '\x0c'

/-- `s.lstrip()` on a char list. -/
def lstripChars (s : List Char) : List Char :=
  s.dropWhile pyIsSpace

/-- `s.rstrip()` on a char list. -/
def rstripChars (s : List Char) : List Char :=
  (s.reverse.dropWhile pyIsSpace).reverse

/-- `s.strip()` on a char list. -/
def stripChars (s : List Char) : List Char :=
  rstripChars (lstripChars s)

/-- `s.replace("\r\n", "\n").replace("\r", "\n")` on a char list: every
CRLF pair and every lone CR becomes LF. -/
def crlfToLf : List Char → List Char
  | [] => []
  | '\x0d' :: '\n' :: rest => '\n' :: crlfToLf rest
  | '\x0d' :: rest => '\n' :: crlfToLf rest
  | c :: rest => c :: crlfToLf rest

/-- `strip` after newline normalization: models the Python idiom
`it.replace("\r\n", "\n").replace("\r", "\n").strip()`. -/
def pyNormStrip (s : List Char) : List Char :=
  stripChars (crlfToLf s)

/-! ## Synchronizer: line-safe bold-run replacement

Embeds `_replace_bold_region_preserve` and
`_replace_bold_items_in_lines` from
`src/lucy_notes_manager/modules/plasma_sync.py`.  A parsed main-widget
line is a list of `(text, is_bold)` segments. -/

/-- `_replace_bold_region_preserve(line, item)`: if the line has no bold
segment return it unchanged; otherwise keep the (non-bold) segments
before the first bold segment and after the last bold segment — with
`is_bold` forced to `False` as in the source — and replace everything
between by the single bold segment `(item, True)`. -/
def replaceBoldRegionPreserve (line : List (List Char × Bool))
    (item : List Char) : List (List Char × Bool) :=
  if line.all (fun s => !s.2) then line
  else
    ((line.takeWhile (fun s => !s.2)).map (fun s => (s.1, false)))
      ++ [(item, true)]
      ++ ((line.reverse.takeWhile (fun s => !s.2)).map
            (fun s => (s.1, false))).reverse

/-- The `for line in main_lines` loop of `_replace_bold_items_in_lines`
with the item cursor `k` expressed by consuming the item list from the
front, followed by the trailing `while k < len(items)` append loop. -/
def replaceBoldLoop : List (List (List Char × Bool)) → List (List Char) →
    List (List (List Char × Bool))
  | [], items => items.map (fun it => [(it, true)])
  | line :: rest, items =>
    if line.any (fun s => s.2) then
      match items with
      | [] => line :: replaceBoldLoop rest []
      | it :: moreItems =>
        replaceBoldRegionPreserve line it :: replaceBoldLoop rest moreItems
    else line :: replaceBoldLoop rest items

/-- `_replace_bold_items_in_lines(main_lines, new_items)`: normalize and
drop empty items, then map one item per bold-bearing line. -/
def replaceBoldItemsInLines (mainLines : List (List (List Char × Bool)))
    (newItems : List (List Char)) : List (List (List Char × Bool)) :=
  let items := (newItems.map pyNormStrip).filter (fun it => !it.isEmpty)
  replaceBoldLoop mainLines items

/-- Number of bold-bearing lines of a parsed document. -/
def boldLineCount (m : List (List (List Char × Bool))) : ℕ :=
  (m.filter (fun ln => ln.any (fun s => s.2))).length

theorem boldLineCount_cons (line : List (List Char × Bool))
    (rest : List (List (List Char × Bool))) :
    boldLineCount (line :: rest)
      = (if line.any (fun s => s.2) then 1 else 0) + boldLineCount rest := by
  unfold boldLineCount
  rw [List.filter_cons]
  cases hb : line.any (fun s => s.2) with
  | true => simp; omega
  | false => simp

theorem replaceBoldLoop_shape (m : List (List (List Char × Bool)))
    (items : List (List Char)) :
    (replaceBoldLoop m items).length
        = m.length + (items.length - boldLineCount m) ∧
      (replaceBoldLoop m items).drop m.length
        = (items.drop (boldLineCount m)).map (fun it => [(it, true)]) ∧
      (∀ (i : ℕ) (line : List (List Char × Bool)), m[i]? = some line →
        line.all (fun s => !s.2) →
        (replaceBoldLoop m items)[i]? = some line) ∧
      (∀ (i : ℕ) (line : List (List Char × Bool)), m[i]? = some line →
        line.any (fun s => s.2) →
        items.length ≤ boldLineCount (m.take i) →
        (replaceBoldLoop m items)[i]? = some line) := by
  induction m generalizing items with
  | nil =>
    refine ⟨by simp [replaceBoldLoop, boldLineCount], ?_, ?_, ?_⟩
    · simp [replaceBoldLoop, boldLineCount]
    · intro i line h; simp at h
    · intro i line h; simp at h
  | cons line rest ih =>
    cases hb : line.any (fun s => s.2) with
    | false =>
      obtain ⟨ihlen, ihdrop, ihnb, ihb⟩ := ih items
      have hloop : replaceBoldLoop (line :: rest) items
          = line :: replaceBoldLoop rest items := by
        simp [replaceBoldLoop, hb]
      have hcnt : boldLineCount (line :: rest) = boldLineCount rest := by
        rw [boldLineCount_cons, hb]
        simp
      refine ⟨?_, ?_, ?_, ?_⟩
      · rw [hloop, hcnt]
        simp [ihlen]
        omega
      · rw [hloop, hcnt]
        simpa using ihdrop
      · intro i ln hln hnb
        cases i with
        | zero =>
          simp at hln
          rw [hloop]
          simp [hln]
        | succ j =>
          rw [hloop]
          simp only [List.getElem?_cons_succ] at hln ⊢
          exact ihnb j ln hln hnb
      · intro i ln hln hbold hle
        cases i with
        | zero =>
          simp at hln
          subst hln
          rw [hbold] at hb
          exact absurd hb (by simp)
        | succ j =>
          rw [hloop]
          simp only [List.getElem?_cons_succ] at hln ⊢
          have hle' : items.length ≤ boldLineCount (rest.take j) := by
            rw [List.take_succ_cons, boldLineCount_cons, hb] at hle
            simpa using hle
          exact ihb j ln hln hbold hle'
    | true =>
      cases items with
      | nil =>
        obtain ⟨ihlen, ihdrop, ihnb, ihb⟩ := ih []
        have hloop : replaceBoldLoop (line :: rest) []
            = line :: replaceBoldLoop rest [] := by
          simp [replaceBoldLoop, hb]
        refine ⟨?_, ?_, ?_, ?_⟩
        · rw [hloop]
          simp [ihlen]
        · rw [hloop]
          simpa using ihdrop
        · intro i ln hln hnb
          cases i with
          | zero =>
            simp at hln
            rw [hloop]
            simp [hln]
          | succ j =>
            rw [hloop]
            simp only [List.getElem?_cons_succ] at hln ⊢
            exact ihnb j ln hln hnb
        · intro i ln hln hbold hle
          cases i with
          | zero =>
            simp at hln
            rw [hloop]
            simp [hln]
          | succ j =>
            rw [hloop]
            simp only [List.getElem?_cons_succ] at hln ⊢
            exact ihb j ln hln hbold (by simp)
      | cons it moreItems =>
        obtain ⟨ihlen, ihdrop, ihnb, ihb⟩ := ih moreItems
        have hloop : replaceBoldLoop (line :: rest) (it :: moreItems)
            = replaceBoldRegionPreserve line it
                :: replaceBoldLoop rest moreItems := by
          simp [replaceBoldLoop, hb]
        have hcnt : boldLineCount (line :: rest) = 1 + boldLineCount rest := by
          rw [boldLineCount_cons, hb]
          simp
        refine ⟨?_, ?_, ?_, ?_⟩
        · rw [hloop, hcnt]
          simp [ihlen]
          omega
        · rw [hloop, hcnt]
          have hdr : (it :: moreItems).drop (1 + boldLineCount rest)
              = moreItems.drop (boldLineCount rest) := by
            rw [Nat.add_comm, List.drop_succ_cons]
          rw [hdr]
          simpa using ihdrop
        · intro i ln hln hnb
          cases i with
          | zero =>
            simp at hln
            subst hln
            rcases List.any_eq_true.1 hb with ⟨s, hs, hsb⟩
            have := List.all_eq_true.1 hnb s hs
            simp [hsb] at this
          | succ j =>
            rw [hloop]
            simp only [List.getElem?_cons_succ] at hln ⊢
            exact ihnb j ln hln hnb
        · intro i ln hln hbold hle
          cases i with
          | zero =>
            simp [boldLineCount] at hle
          | succ j =>
            rw [hloop]
            simp only [List.getElem?_cons_succ] at hln ⊢
            have hle' : moreItems.length ≤ boldLineCount (rest.take j) := by
              rw [List.take_succ_cons, boldLineCount_cons, hb] at hle
              simp at hle
              omega
            exact ihb j ln hln hbold hle'

/-- **C7.** For parsed main-widget lines `M` and an item list `I`
(trimmed and empties dropped, written `items`):
the result of `_replace_bold_items_in_lines(M, I)` has exactly
`|M| + (|items| ∸ boldCount)` lines — so exactly `|M|` lines when
`|items| ≤ boldCount`; every line of `M` with no bold segment is
unchanged at its position; every bold-bearing line whose bold-index is
beyond the consumed items is unchanged at its position; and the excess
items (when `|items| > boldCount`) are appended at the end, each as a
new line consisting of a single all-bold segment. -/
theorem replace_bold_items_spec (m : List (List (List Char × Bool)))
    (i : List (List Char))
    (items : List (List Char))
    (hitems : items = (i.map pyNormStrip).filter (fun it => !it.isEmpty)) :
    ((replaceBoldItemsInLines m i).length
        = m.length + (items.length - boldLineCount m)) ∧
      (items.length ≤ boldLineCount m →
        (replaceBoldItemsInLines m i).length = m.length) ∧
      ((replaceBoldItemsInLines m i).drop m.length
        = (items.drop (boldLineCount m)).map (fun it => [(it, true)])) ∧
      (∀ (j : ℕ) (line : List (List Char × Bool)), m[j]? = some line →
        line.all (fun s => !s.2) →
        (replaceBoldItemsInLines m i)[j]? = some line) ∧
      (∀ (j : ℕ) (line : List (List Char × Bool)), m[j]? = some line →
        line.any (fun s => s.2) →
        items.length ≤ boldLineCount (m.take j) →
        (replaceBoldItemsInLines m i)[j]? = some line) := by
  have hdef : replaceBoldItemsInLines m i = replaceBoldLoop m items := by
    rw [hitems]; rfl
  obtain ⟨hlen, hdrop, hnb, hbold⟩ := replaceBoldLoop_shape m items
  rw [hdef]
  exact ⟨hlen, fun hle => by rw [hlen]; omega, hdrop, hnb, hbold⟩

/-- Witness for `replace_bold_items_spec`: two lines (one bold-bearing)
and two items; the excess item is appended as an all-bold line. -/
theorem replace_bold_items_spec_witness :
    ((replaceBoldItemsInLines
          [[((" - ").data, false), (("A").data, true)], [(("x").data, false)]] [("A2").data, ("B2").data]).length
        = [[((" - ").data, false), (("A").data, true)], [(("x").data, false)]].length
            + ([("A2").data, ("B2").data].length
              - boldLineCount [[((" - ").data, false), (("A").data, true)], [(("x").data, false)]])) ∧
      ([("A2").data, ("B2").data].length
          ≤ boldLineCount [[((" - ").data, false), (("A").data, true)], [(("x").data, false)]] →
        (replaceBoldItemsInLines
            [[((" - ").data, false), (("A").data, true)], [(("x").data, false)]] [("A2").data, ("B2").data]).length
          = [[((" - ").data, false), (("A").data, true)], [(("x").data, false)]].length) ∧
      ((replaceBoldItemsInLines
            [[((" - ").data, false), (("A").data, true)], [(("x").data, false)]] [("A2").data, ("B2").data]).drop
          [[((" - ").data, false), (("A").data, true)], [(("x").data, false)]].length
        = ([("A2").data, ("B2").data].drop
            (boldLineCount [[((" - ").data, false), (("A").data, true)], [(("x").data, false)]])).map
              (fun it => [(it, true)])) ∧
      (∀ (j : ℕ) (line : List (List Char × Bool)),
        [[((" - ").data, false), (("A").data, true)], [(("x").data, false)]][j]? = some line →
          line.all (fun s => !s.2) →
          (replaceBoldItemsInLines
              [[((" - ").data, false), (("A").data, true)], [(("x").data, false)]]
              [("A2").data, ("B2").data])[j]? = some line) ∧
      (∀ (j : ℕ) (line : List (List Char × Bool)),
        [[((" - ").data, false), (("A").data, true)], [(("x").data, false)]][j]? = some line →
          line.any (fun s => s.2) →
          [("A2").data, ("B2").data].length
              ≤ boldLineCount
                  ([[((" - ").data, false), (("A").data, true)], [(("x").data, false)]].take j) →
          (replaceBoldItemsInLines
              [[((" - ").data, false), (("A").data, true)], [(("x").data, false)]]
              [("A2").data, ("B2").data])[j]? = some line) :=
  replace_bold_items_spec
    [[((" - ").data, false), (("A").data, true)], [(("x").data, false)]] [("A2").data, ("B2").data] [("A2").data, ("B2").data]
    (by decide)

/-! ## Synchronizer: markdown-side text processing

Embeds `_normalize_text`, `_unwrap_md_bold`, `_wrap_md_bold_line`,
`_normalize_markdown_bold` and the `_LIST_PREFIX_RE` regex from
`src/lucy_notes_manager/modules/plasma_sync.py`.  Strings are processed
as `List Char`; `str.splitlines` is modelled for LF-separated text
(exotic Unicode line terminators, which Python also splits on, behave
like LF and never survive into any intermediate value). -/

/-- `str.splitlines()` for LF text: split on `'\n'`; a trailing
newline produces no trailing empty line. -/
def splitLinesAux : List Char → List Char → List (List Char)
  | [], acc => if acc.isEmpty then [] else [acc.reverse]
  | '\n' :: rest, acc => acc.reverse :: splitLinesAux rest []
  | c :: rest, acc => splitLinesAux rest (c :: acc)

/-- `s.splitlines()` on a char list. -/
def splitLinesChars (s : List Char) : List (List Char) :=
  splitLinesAux s []

/-- `"\n".join(lines)` on char lists. -/
def joinNl (lines : List (List Char)) : List Char :=
  match lines with
  | [] => []
  | [l] => l
  | l :: rest => l ++ '\n' :: joinNl rest

/-- `a.startswith(b)`. -/
def listStartsWith (s pre : List Char) : Bool :=
  s.take pre.length == pre

/-- `a.endswith(b)`. -/
def listEndsWith (s suf : List Char) : Bool :=
  s.drop (s.length - suf.length) == suf ∧ suf.length ≤ s.length

/-- Blank line test `line.strip() == ""`. -/
def isBlankLine (l : List Char) : Bool :=
  (stripChars l).isEmpty

/-- The `_LIST_PREFIX_RE` regex `^(\s*[-*+]\s+)(.*)$`: greedy leading
whitespace, one list marker, greedy non-empty whitespace, then the rest
of the line.  Returns `(prefix-group, rest-group)` on match. -/
def listPrefixSplit (line : List Char) : Option (List Char × List Char) :=
  let ws := line.takeWhile pyIsSpace
  match line.drop ws.length with
  | [] => none
  | m :: rest =>
    if m == '-' || m == '*' || m == '+' then
      let ws2 := rest.takeWhile pyIsSpace
      if ws2.isEmpty then none
      else some (ws ++ m :: ws2, rest.drop ws2.length)
    else none

/-- `_unwrap_md_bold(s)`: accept `**text**` (whole-string wrap, length
at least 4 after stripping) and return the stripped inner text. -/
def unwrapMdBold (s : List Char) : Option (List Char) :=
  let s2 := stripChars s
  if 4 ≤ s2.length && listStartsWith s2 ['*', '*']
      && listEndsWith s2 ['*', '*'] then
    some (stripChars ((s2.drop 2).take (s2.length - 4)))
  else none

/-- `_wrap_md_bold_line(plain_line)`: canonical bold rendering of a
plain line, preserving a list prefix. -/
def wrapMdBoldLine (plainLine : List Char) : List Char :=
  let line := (plainLine.reverse.dropWhile (fun c => c == '\n')).reverse
  match listPrefixSplit line with
  | some (pfx, rest) =>
    let rest2 := stripChars rest
    if rest2.isEmpty then rstripChars pfx
    else pfx ++ '*' :: '*' :: (rest2 ++ ['*', '*'])
  | none =>
    let inner := stripChars line
    if inner.isEmpty then []
    else '*' :: '*' :: (inner ++ ['*', '*'])

/-- The blank-run replacement of `_normalize_text`: how many blank
lines (0 or 1) to keep between the last non-blank line and the next
non-blank line. -/
def normKeepBlanks (last : Option (List Char)) (next : List Char) :
    List (List Char) :=
  let prev := rstripChars (last.getD [])
  let nexts := lstripChars next
  if listEndsWith prev [':'] && listStartsWith nexts ['-', ' '] then []
  else if listStartsWith (lstripChars prev) ['-', ' ']
      && listStartsWith nexts ['-', ' '] then []
  else [[]]

/-- The line loop of `_normalize_text`, with the index arithmetic of the
source replaced by an equivalent single pass: leading blank lines are
skipped (`last` is still `none`), a run of blank lines is remembered in
`pendingBlank` and replaced by `normKeepBlanks` when the next non-blank
line arrives, and trailing blanks produce nothing (the source's final
pop loop). -/
def normTextLoop :
    List (List Char) → Option (List Char) → Bool → List (List Char)
  | [], _, _ => []
  | l :: ls, last, pendingBlank =>
    if isBlankLine l then normTextLoop ls last true
    else
      (if pendingBlank && last.isSome then normKeepBlanks last l else [])
        ++ l :: normTextLoop ls (some l) false

/-- `_normalize_text(text)`. -/
def normalizeTextChars (s : List Char) : List Char :=
  joinNl (normTextLoop (splitLinesChars (crlfToLf s)) none false)

/-- Per-line action of `_normalize_markdown_bold`: returns the
normalized markdown line, the plain line, and the bold items it
contributes. -/
def normMdBoldLine (rawLine : List Char) :
    List Char × List Char × List (List Char) :=
  if (stripChars rawLine).isEmpty then ([], [], [])
  else
    match listPrefixSplit rawLine with
    | some (pfx, rest) =>
      match unwrapMdBold rest with
      | some inner =>
        (pfx ++ '*' :: '*' :: (inner ++ ['*', '*']), pfx ++ inner,
          if (stripChars inner).isEmpty then [] else [stripChars inner])
      | none => (rawLine, rawLine, [])
    | none =>
      match unwrapMdBold rawLine with
      | some inner2 =>
        ('*' :: '*' :: (inner2 ++ ['*', '*']), inner2,
          if (stripChars inner2).isEmpty then [] else [stripChars inner2])
      | none => (rawLine, rawLine, [])

/-- `_normalize_markdown_bold(md_text)`: returns
`(md_norm, plain_norm, items)`. -/
def normalizeMarkdownBold (mdText : List Char) :
    List Char × List Char × List (List Char) :=
  let lines := splitLinesChars (crlfToLf mdText)
  let outs := lines.map normMdBoldLine
  let mdNorm := normalizeTextChars (joinNl (outs.map (fun o => o.1)))
  let plainNorm := normalizeTextChars (joinNl (outs.map (fun o => o.2.1)))
  let items := outs.flatMap (fun o => o.2.2)
  (mdNorm, plainNorm,
    (items.filter (fun it => !(stripChars it).isEmpty)).map
      (fun it => stripChars (crlfToLf it)))

/-! ## Synchronizer: Plasma HTML generation

Embeds `_markdown_to_plasma_html`, `_bold_items_to_plasma_html`,
`_boldaware_lines_to_plasma_html`, `_looks_like_complete_html`,
`_hash_text` and `_items_hash`. -/

/-- `html.escape(s, quote=False)`: `&` → `&amp;`, `<` → `&lt;`,
`>` → `&gt;` (Python applies three sequential `str.replace` calls whose
composition equals this single pass). -/
def escapeHtmlChars : List Char → List Char
  | [] => []
  | '&' :: rest => '&' :: 'a' :: 'm' :: 'p' :: ';' :: escapeHtmlChars rest
  | '<' :: rest => '&' :: 'l' :: 't' :: ';' :: escapeHtmlChars rest
  | '>' :: rest => '&' :: 'g' :: 't' :: ';' :: escapeHtmlChars rest
  | c :: rest => c :: escapeHtmlChars rest

/-- The fixed HTML skeleton head emitted by every generator in
`plasma_sync.py` (the `header` local). -/
def plasmaHeader : String :=
  "<!DOCTYPE HTML PUBLIC \"-//W3C//DTD HTML 4.0//EN\" \"http://www.w3.org/TR/REC-html40/strict.dtd\">\n<html><head><meta name=\"qrichtext\" content=\"1\" /><meta charset=\"utf-8\" /><style type=\"text/css\">\np, li \x7b white-space: pre-wrap; \x7d\nhr \x7b height: 1px; border-width: 0; \x7d\nli.unchecked::marker \x7b content: \"\\2610\"; \x7d\nli.checked::marker \x7b content: \"\\2612\"; \x7d\n</style></head><body style=\" font-family:'Noto Sans'; font-size:10pt; font-weight:400; font-style:normal;\">\n"

/-- The `base_style` paragraph style string. -/
def plasmaBaseStyle : String :=
  " margin-top:0px; margin-bottom:0px; margin-left:0px; margin-right:0px; -qt-block-indent:0; text-indent:0px;"

/-- The closing part `"</body></html>\n"` of every generated document. -/
def plasmaFooter : String := "</body></html>\n"

/-- The `<span style=" font-weight:600;">` opening tag for bold runs. -/
def boldSpanOpen : String := "<span style=\" font-weight:600;\">"

/-- The `<p style="...">` opener with the base style. -/
def pOpen : List Char :=
  ("<p style=\"" ++ plasmaBaseStyle ++ "\">").data

/-- The empty-paragraph element. -/
def pEmpty : List Char :=
  ("<p style=\"-qt-paragraph-type:empty;" ++ plasmaBaseStyle
    ++ "\"><br /></p>\n").data

/-- One line of the body of `_markdown_to_plasma_html`: the `for line in
md_norm.splitlines()` loop body. -/
def renderMdLine (line : List Char) : List Char :=
  if (stripChars line).isEmpty then pEmpty
  else
    match listPrefixSplit line with
    | some (pfx, rest) =>
      match unwrapMdBold rest with
      | some inner =>
        pOpen ++ escapeHtmlChars pfx ++ boldSpanOpen.data
          ++ escapeHtmlChars inner ++ ("</span></p>\n").data
      | none => pOpen ++ escapeHtmlChars line ++ ("</p>\n").data
    | none =>
      match unwrapMdBold line with
      | some inner2 =>
        pOpen ++ boldSpanOpen.data ++ escapeHtmlChars inner2
          ++ ("</span></p>\n").data
      | none => pOpen ++ escapeHtmlChars line ++ ("</p>\n").data

/-- `_markdown_to_plasma_html(md_text)`. -/
def markdownToPlasmaHtml (mdText : List Char) : List Char :=
  let mdNorm := (normalizeMarkdownBold mdText).1
  plasmaHeader.data
    ++ (splitLinesChars mdNorm).flatMap renderMdLine
    ++ plasmaFooter.data

/-- `_bold_items_to_plasma_html(items)`: one all-bold paragraph per
non-empty normalized item. -/
def boldItemsToPlasmaHtml (items : List (List Char)) : List Char :=
  let norm := (items.map (fun it => stripChars (crlfToLf it))).filter
    (fun it => !it.isEmpty)
  plasmaHeader.data
    ++ norm.flatMap (fun line =>
        pOpen ++ boldSpanOpen.data ++ escapeHtmlChars line
          ++ ("</span></p>\n").data)
    ++ plasmaFooter.data

/-- `_boldaware_lines_to_plasma_html(lines)`: serialize parsed
bold-aware lines back to main-widget HTML. -/
def boldawareLinesToPlasmaHtml (lines : List (List (List Char × Bool))) :
    List Char :=
  plasmaHeader.data
    ++ lines.flatMap (fun ln =>
        if (stripChars (ln.flatMap (fun s => s.1))).isEmpty then pEmpty
        else
          pOpen
            ++ ln.flatMap (fun s =>
                if s.2 then
                  boldSpanOpen.data ++ escapeHtmlChars s.1
                    ++ ("</span>").data
                else escapeHtmlChars s.1)
            ++ ("</p>\n").data)
    ++ plasmaFooter.data

/-- ASCII `str.lower()`. -/
def asciiLowerChar (c : Char) : Char :=
  if 'A' ≤ c && c ≤ 'Z' then Char.ofNat (c.toNat + 32) else c

/-- `needle in haystack` substring test on char lists. -/
def containsSub (needle hay : List Char) : Bool :=
  match hay with
  | [] => needle.isEmpty
  | _ :: rest =>
    if listStartsWith hay needle then true else containsSub needle rest

/-- `_looks_like_complete_html(s)`. -/
def looksLikeCompleteHtml (s : List Char) : Bool :=
  let s2 := s.map asciiLowerChar
  containsSub ("<html").data s2 && containsSub ("<body").data s2
    && containsSub ("</body>").data s2 && containsSub ("</html>").data s2

/-- Models `_hash_text` (`hashlib.sha256(text.encode()).hexdigest()`).
The synchronizer only ever compares digests for equality, so the hash
is modelled by an injective placeholder — the text itself. -/
def hashText (s : List Char) : List Char := s

/-- `_items_hash(items)`: hash of the newline-joined normalized items. -/
def itemsHash (items : List (List Char)) : List Char :=
  let norm := (items.map (fun it => stripChars (crlfToLf it))).filter
    (fun it => !it.isEmpty)
  hashText (joinNl norm)

/-! ## HTML tokenizer

Models the event stream that Python's `html.parser.HTMLParser`
(`convert_charrefs=True`) delivers to the two parser subclasses in
`plasma_sync.py`: start tags (with the `style` attribute, the only one
either subclass reads), end tags, declarations, and text data with
character references decoded.  Self-closing tags (`<br />`,
`<meta ... />`) produce a start followed by an end event
(`handle_startendtag`).  The CDATA mode for `<style>` content is not
modelled; the only `<style>` block in this dialect contains no `<`, so
the event stream is unaffected. -/

/-- HTML parser events. -/
inductive HtmlEv where
  | startTag (name : List Char) (style : Option (List Char))
  | endTag (name : List Char)
  | dataEv (text : List Char)
  | declEv
deriving DecidableEq

/-- Decode the character references that `html.escape` can produce
(`&amp;` `&lt;` `&gt;`), one left-to-right pass, anything else
verbatim. -/
def unescapeHtmlChars : List Char → List Char
  | [] => []
  | '&' :: 'a' :: 'm' :: 'p' :: ';' :: rest => '&' :: unescapeHtmlChars rest
  | '&' :: 'l' :: 't' :: ';' :: rest => '<' :: unescapeHtmlChars rest
  | '&' :: 'g' :: 't' :: ';' :: rest => '>' :: unescapeHtmlChars rest
  | c :: rest => c :: unescapeHtmlChars rest

/-- Extract the value of the first `style="…"` attribute of a tag body
(the only attribute `_push_tag_style_bold` and the `span` handler look
up in `attrs`). -/
def findStyleAttr : List Char → Option (List Char)
  | [] => none
  | c :: rest =>
    if listStartsWith (c :: rest) (" style=\"").data then
      some (((c :: rest).drop 8).takeWhile (fun ch => !(ch == '"')))
    else findStyleAttr rest

/-- Lower-cased tag name of a tag body (HTMLParser lower-cases names). -/
def tagNameOf (body : List Char) : List Char :=
  (body.takeWhile (fun c => !(pyIsSpace c) && !(c == '/') && !(c == '>'))).map
    asciiLowerChar

/-- Events produced for one `<…>` tag body. -/
def ofTagBody (body : List Char) : List HtmlEv :=
  match body with
  | [] => []
  | '!' :: _ => [.declEv]
  | '/' :: rest => [.endTag (tagNameOf rest)]
  | _ =>
    let name := tagNameOf body
    let style := findStyleAttr body
    if listEndsWith body ['/'] then [.startTag name style, .endTag name]
    else [.startTag name style]

/-- Tokenizer state: accumulating text or the inside of a tag (both
accumulated in reverse). -/
inductive TkState where
  | text (acc : List Char)
  | tag (acc : List Char)
deriving DecidableEq

/-- Emit a pending text run as a data event (empty runs emit nothing). -/
def tkFlush (acc : List Char) : List HtmlEv :=
  if acc.isEmpty then [] else [.dataEv (unescapeHtmlChars acc.reverse)]

/-- One character of tokenization. -/
def tkStep (st : TkState) (c : Char) : TkState × List HtmlEv :=
  match st with
  | .text acc =>
    if c == '<' then (.tag [], tkFlush acc) else (.text (c :: acc), [])
  | .tag acc =>
    if c == '>' then (.text [], ofTagBody acc.reverse)
    else (.tag (c :: acc), [])

/-- Run the tokenizer; an unterminated tag at end of input produces no
event (HTMLParser keeps it buffered). -/
def tkRun : TkState → List Char → List HtmlEv
  | .text acc, [] => tkFlush acc
  | .tag _, [] => []
  | st, c :: rest =>
    let se := tkStep st c
    se.2 ++ tkRun se.1 rest

/-- Tokenize an HTML document into parser events. -/
def tokenizeHtml (s : List Char) : List HtmlEv :=
  tkRun (.text []) s

/-! ## Synchronizer: bold-aware main-widget parser

Embeds `_style_is_bold` and `_PlasmaBoldAwareParser`. -/

/-- Decimal digits to a natural number. -/
def digitsToNat (ds : List Char) : ℕ :=
  ds.foldl (fun n c => n * 10 + (c.toNat - '0'.toNat)) 0

/-- Python `int(s)` on an optionally signed decimal string (stripping
whitespace); `none` models `ValueError`. -/
def parsePyInt (s : List Char) : Option Int :=
  let t := stripChars s
  match t with
  | '-' :: ds =>
    if !ds.isEmpty && ds.all Char.isDigit then some (-(digitsToNat ds : Int))
    else none
  | '+' :: ds =>
    if !ds.isEmpty && ds.all Char.isDigit then some (digitsToNat ds : Int)
    else none
  | ds =>
    if !ds.isEmpty && ds.all Char.isDigit then some (digitsToNat ds : Int)
    else none

/-- Suffix of `hay` after the last occurrence of `needle`
(`s[s.rfind(needle) + len(needle):]`); `none` if absent. -/
def afterLastOccurrence (needle : List Char) : List Char → Option (List Char)
  | [] => if needle.isEmpty then some [] else none
  | c :: rest =>
    match afterLastOccurrence needle rest with
    | some r => some r
    | none =>
      if listStartsWith (c :: rest) needle then
        some ((c :: rest).drop needle.length)
      else none

/-- `_style_is_bold(style)`: lower-case, drop spaces; bold iff the
style contains `font-weight:bold`, or the integer after the last
`font-weight:` (up to `;`) parses and is ≥ 600. -/
def styleIsBold (style : List Char) : Bool :=
  let s := (style.map asciiLowerChar).filter (fun c => !(c == ' '))
  if containsSub ("font-weight:bold").data s then true
  else if containsSub ("font-weight:").data s then
    match afterLastOccurrence ("font-weight:").data s with
    | some after =>
      match parsePyInt (after.takeWhile (fun c => !(c == ';'))) with
      | some n => decide ((600 : Int) ≤ n)
      | none => false
    | none => false
  else false

/-- `_PlasmaBoldAwareParser` state. -/
structure BoldParser where
  inBody : Bool
  blockDepth : ℕ
  boldDepth : ℕ
  spanBoldStack : List Bool
  pStack : List Bool
  liStack : List Bool
  fontStack : List Bool
  lines : List (List (List Char × Bool))
deriving DecidableEq

/-- Initial parser state (`_lines = [[]]`). -/
def bpInit : BoldParser :=
  ⟨false, 0, 0, [], [], [], [], [[]]⟩

/-- `self._lines.append([])` (`_newline`). -/
def bpNewline (st : BoldParser) : BoldParser :=
  { st with lines := st.lines ++ [[]] }

/-- `self._lines[-1].append((text, bold))` (`_append`, which skips
empty text). -/
def bpAppend (st : BoldParser) (text : List Char) : BoldParser :=
  if text.isEmpty then st
  else
    { st with
      lines := st.lines.dropLast
        ++ [(st.lines.getLast?.getD []) ++ [(text, decide (0 < st.boldDepth))]] }

/-- `_push_tag_style_bold(tag, attrs)` for `p`/`li`/`font`: push the
style's boldness on the tag's stack and raise the bold depth if bold. -/
def bpPushTagStyle (st : BoldParser) (tag : ℕ) (style : Option (List Char)) :
    BoldParser :=
  let isBold := styleIsBold (style.getD [])
  let st :=
    match tag with
    | 0 => { st with pStack := st.pStack ++ [isBold] }
    | 1 => { st with liStack := st.liStack ++ [isBold] }
    | _ => { st with fontStack := st.fontStack ++ [isBold] }
  if isBold then { st with boldDepth := st.boldDepth + 1 } else st

/-- `_pop_tag_style_bold(tag)`. -/
def bpPopTagStyle (st : BoldParser) (tag : ℕ) : BoldParser :=
  let stack := match tag with
    | 0 => st.pStack
    | 1 => st.liStack
    | _ => st.fontStack
  if stack.isEmpty then st
  else
    let wasBold := stack.getLast?.getD false
    let st :=
      match tag with
      | 0 => { st with pStack := st.pStack.dropLast }
      | 1 => { st with liStack := st.liStack.dropLast }
      | _ => { st with fontStack := st.fontStack.dropLast }
    if wasBold then { st with boldDepth := st.boldDepth - 1 } else st

/-- `handle_starttag`. -/
def bpStart (st : BoldParser) (name : List Char) (style : Option (List Char)) :
    BoldParser :=
  if name == ("body").data then { st with inBody := true }
  else if !st.inBody then st
  else if name == ("p").data then
    bpPushTagStyle { st with blockDepth := st.blockDepth + 1 } 0 style
  else if name == ("li").data then
    bpPushTagStyle { st with blockDepth := st.blockDepth + 1 } 1 style
  else if name == ("font").data then bpPushTagStyle st 2 style
  else if name == ("b").data || name == ("strong").data then
    { st with boldDepth := st.boldDepth + 1 }
  else if name == ("span").data then
    let isBold := styleIsBold (style.getD [])
    let st := { st with spanBoldStack := st.spanBoldStack ++ [isBold] }
    if isBold then { st with boldDepth := st.boldDepth + 1 } else st
  else if name == ("br").data then bpNewline st
  else st

/-- `handle_endtag`. -/
def bpEnd (st : BoldParser) (name : List Char) : BoldParser :=
  if name == ("body").data then { st with inBody := false, blockDepth := 0 }
  else if !st.inBody then st
  else if name == ("b").data || name == ("strong").data then
    { st with boldDepth := st.boldDepth - 1 }
  else if name == ("span").data then
    if st.spanBoldStack.isEmpty then st
    else
      let wasBold := st.spanBoldStack.getLast?.getD false
      let st := { st with spanBoldStack := st.spanBoldStack.dropLast }
      if wasBold then { st with boldDepth := st.boldDepth - 1 } else st
  else if name == ("font").data then bpPopTagStyle st 2
  else if name == ("p").data then
    let st := bpNewline (bpPopTagStyle st 0)
    { st with blockDepth := st.blockDepth - 1 }
  else if name == ("li").data then
    let st := bpNewline (bpPopTagStyle st 1)
    { st with blockDepth := st.blockDepth - 1 }
  else st

/-- `handle_data`. -/
def bpData (st : BoldParser) (text : List Char) : BoldParser :=
  if !st.inBody then st
  else if st.blockDepth == 0 && (stripChars text).isEmpty then st
  else bpAppend st text

/-- Dispatch one tokenizer event. -/
def bpStepEv (st : BoldParser) (ev : HtmlEv) : BoldParser :=
  match ev with
  | .startTag name style => bpStart st name style
  | .endTag name => bpEnd st name
  | .dataEv text => bpData st text
  | .declEv => st

/-- Plain text of a parsed line. -/
def segText (ln : List (List Char × Bool)) : List Char :=
  ln.flatMap (fun s => s.1)

/-- The per-line merge of `get_lines`: drop empty texts and merge
adjacent segments with the same boldness. -/
def mergeSegs (ln : List (List Char × Bool)) : List (List Char × Bool) :=
  ln.foldl
    (fun merged s =>
      if s.1.isEmpty then merged
      else
        match merged.getLast? with
        | some last' =>
          if last'.2 == s.2 then
            merged.dropLast ++ [(last'.1 ++ s.1, s.2)]
          else merged ++ [s]
        | none => [s])
    []

/-- The blank-run collapse of `get_lines` (`prev_blank` loop). -/
def collapseBlankLines :
    List (List (List Char × Bool)) → Bool → List (List (List Char × Bool))
  | [], _ => []
  | ln :: rest, prevBlank =>
    let blank := (stripChars (segText ln)).isEmpty
    if blank && prevBlank then collapseBlankLines rest prevBlank
    else ln :: collapseBlankLines rest blank

/-- `get_lines`: merge each line, trim leading and trailing blank
lines, collapse interior blank runs to a single blank line. -/
def bpGetLines (st : BoldParser) : List (List (List Char × Bool)) :=
  let mergedLines := st.lines.map mergeSegs
  let step1 := mergedLines.dropWhile
    (fun ln => (stripChars (segText ln)).isEmpty)
  let step2 := (step1.reverse.dropWhile
    (fun ln => (stripChars (segText ln)).isEmpty)).reverse
  collapseBlankLines step2 false

/-- `_plasma_html_to_boldaware_lines(html_src)`. -/
def plasmaHtmlToBoldawareLines (html : List Char) :
    List (List (List Char × Bool)) :=
  bpGetLines ((tokenizeHtml html).foldl bpStepEv bpInit)

/-- `_main_html_to_markdown_and_items(html_raw)`. -/
def mainHtmlToMarkdownAndItems (htmlRaw : List Char) :
    List Char × List Char × List (List Char) :=
  let lines := plasmaHtmlToBoldawareLines htmlRaw
  let mdLines := lines.map (fun ln =>
    let plainLine := segText ln
    if (stripChars plainLine).isEmpty then []
    else if ln.any (fun s => s.2) then wrapMdBoldLine plainLine
    else plainLine)
  let mdCandidate := normalizeTextChars (joinNl mdLines)
  normalizeMarkdownBold mdCandidate

/-! ## Synchronizer: plain mirror parser

Embeds `_PlasmaHTMLParser` and `_html_to_text` (used for the
bold-mirror file). -/

/-- `_PlasmaHTMLParser` state. -/
structure PlainParser where
  inBody : Bool
  inBlock : Bool
  current : Option (List Char)
  lines : List (List Char)
deriving DecidableEq

/-- `handle_starttag`. -/
def ppStart (st : PlainParser) (name : List Char) : PlainParser :=
  if name == ("body").data then { st with inBody := true }
  else if !st.inBody then st
  else if name == ("p").data || name == ("li").data then
    let st :=
      if st.current.isSome && st.inBlock then
        { st with lines := st.lines ++ [st.current.getD []] }
      else st
    { st with current := some [], inBlock := true }
  else if !st.inBlock then st
  else if name == ("br").data then
    { st with current := some ((st.current.getD []) ++ ['\n']) }
  else st

/-- `handle_endtag`. -/
def ppEnd (st : PlainParser) (name : List Char) : PlainParser :=
  if name == ("body").data then
    let st :=
      if st.current.isSome && st.inBlock then
        { st with lines := st.lines ++ [st.current.getD []] }
      else st
    { st with current := none, inBody := false, inBlock := false }
  else if !st.inBody then st
  else if name == ("p").data || name == ("li").data then
    { st with
      lines := st.lines ++ [st.current.getD []]
      current := none
      inBlock := false }
  else st

/-- `handle_data`. -/
def ppData (st : PlainParser) (text : List Char) : PlainParser :=
  if !st.inBody then st
  else if !st.inBlock && (stripChars text).isEmpty then st
  else
    match st.current with
    | none =>
      if (stripChars text).isEmpty then st
      else { st with current := some text }
    | some cur => { st with current := some (cur ++ text) }

/-- Dispatch one tokenizer event. -/
def ppStepEv (st : PlainParser) (ev : HtmlEv) : PlainParser :=
  match ev with
  | .startTag name _ => ppStart st name
  | .endTag name => ppEnd st name
  | .dataEv text => ppData st text
  | .declEv => st

/-- `get_text()`: flush the pending block and join lines. -/
def ppGetText (st : PlainParser) : List Char :=
  let lines :=
    if st.current.isSome && st.inBlock then st.lines ++ [st.current.getD []]
    else st.lines
  joinNl lines

/-- `_html_to_text(html_src)`. -/
def htmlToText (html : List Char) : List Char :=
  normalizeTextChars
    (ppGetText ((tokenizeHtml html).foldl ppStepEv ⟨false, false, none, []⟩))


/-! ## Synchronizer: file system, state and direction handlers

Embeds `_read_file` / `_read_file_stable` (the file system does not
change during one handler run, so the stable re-read equals a single
read), `_write_if_changed`, `_inc_ignore`, the module-level sync state,
`_update_md_state`, `_set_plain_state`, and the three direction
handlers `PlasmaSync._from_markdown`, `PlasmaSync._from_main_plasma`
and `PlasmaSync._from_bold_mirror`.  The file system is a dict from
(absolute, `_rpath`-normalized) path atoms to file content; read errors
and write errors are not modelled (reads return `""` for missing files
as in `_read_file`; writes succeed). -/

/-- `_read_file(path)`: file content, `""` when missing. -/
def readFsFile (fs : List (String × List Char)) (path : String) : List Char :=
  dictGet fs path []

/-- `os.path.exists(path)` on the modelled file system. -/
def fsExists (fs : List (String × List Char)) (path : String) : Bool :=
  dictMem fs path

/-- `_write_if_changed(path, content)`: compare with the current
content and write only on difference; returns whether a write
happened. -/
def writeIfChanged (fs : List (String × List Char)) (path : String)
    (content : List Char) : Bool × List (String × List Char) :=
  if readFsFile fs path == content then (false, fs)
  else (true, dictSet fs path content)

/-- `_inc_ignore(ignore, path, times)`. -/
def incIgnore (m : List (String × Int)) (path : String) (times : Int) :
    List (String × Int) :=
  dictSet m path (dictGet m path 0 + times)

/-- The module-level sync state of `plasma_sync.py`
(`_CURRENT_MD_TEXT/HASH`, `_CURRENT_PLAIN_TEXT/HASH`,
`_MAIN_BOLD_HASH`, `_BOLD_NOTE_ITEMS_HASH`). -/
structure SyncState where
  mdText : Option (List Char)
  mdHash : Option (List Char)
  plainText : Option (List Char)
  plainHash : Option (List Char)
  mainBoldHash : Option (List Char)
  boldItemsHash : Option (List Char)
deriving DecidableEq

/-- `_update_md_state(md_text)`: normalize, hash, report whether the
canonical markdown hash changed and update it if so. -/
def updateMdState (st : SyncState) (mdText : List Char) : Bool × SyncState :=
  let mdNorm := normalizeTextChars mdText
  let h := hashText mdNorm
  if st.mdHash == some h then (false, st)
  else (true, { st with mdText := some mdNorm, mdHash := some h })

/-- `_set_plain_state(plain_text)`. -/
def setPlainState (st : SyncState) (plainText : List Char) : SyncState :=
  let plainNorm := normalizeTextChars plainText
  { st with plainText := some plainNorm, plainHash := some (hashText plainNorm) }

/-- `PlasmaSync._from_markdown(markdown_path, widget_path,
bold_widget_path)`: canonicalize the markdown file, regenerate the main
widget, and (when configured) the bold mirror; returns the change map,
the successor sync state and file system. -/
def fromMarkdown (st : SyncState) (fs : List (String × List Char))
    (markdownPath widgetPath : String) (boldWidgetPath : Option String) :
    Option (List (String × Int)) × SyncState × List (String × List Char) :=
  let mdRaw := readFsFile fs markdownPath
  if mdRaw.isEmpty && !(fsExists fs markdownPath) then (none, st, fs)
  else
    let n := normalizeMarkdownBold mdRaw
    let mdNorm := n.1
    let cs := updateMdState st mdNorm
    let st1 := setPlainState cs.2 n.2.1
    let wfs :=
      if crlfToLf mdRaw != mdNorm then writeIfChanged fs markdownPath mdNorm
      else (false, fs)
    let ignore1 : List (String × Int) :=
      if wfs.1 then incIgnore [] markdownPath 4 else []
    if !cs.1 && ignore1.isEmpty then (none, st1, wfs.2)
    else
      let mainHtml := markdownToPlasmaHtml mdNorm
      let wfs2 := writeIfChanged wfs.2 widgetPath mainHtml
      let ignore2 := if wfs2.1 then incIgnore ignore1 widgetPath 4 else ignore1
      let itemsH := itemsHash n.2.2
      let st2 := { st1 with
        mainBoldHash := some itemsH
        boldItemsHash := some itemsH }
      match boldWidgetPath with
      | some bp =>
        let mirror := boldItemsToPlasmaHtml n.2.2
        let wfs3 := writeIfChanged wfs2.2 bp mirror
        let ignore3 := if wfs3.1 then incIgnore ignore2 bp 4 else ignore2
        (if ignore3.isEmpty then none else some ignore3, st2, wfs3.2)
      | none =>
        (if ignore2.isEmpty then none else some ignore2, st2, wfs2.2)

/-- `PlasmaSync._from_main_plasma(widget_path, markdown_path,
bold_widget_path, html_path)`: regenerate the markdown (and mirror)
from the main widget.  (`widget_path` is unused in the source body;
the file is read through `html_path`.) -/
def fromMainPlasma (st : SyncState) (fs : List (String × List Char))
    (markdownPath : String) (boldWidgetPath : Option String)
    (htmlPath : String) :
    Option (List (String × Int)) × SyncState × List (String × List Char) :=
  if !(fsExists fs htmlPath) then (none, st, fs)
  else
    let htmlRaw := readFsFile fs htmlPath
    if htmlRaw.isEmpty then (none, st, fs)
    else if !(looksLikeCompleteHtml htmlRaw) then (none, st, fs)
    else
      let n := mainHtmlToMarkdownAndItems htmlRaw
      let cs := updateMdState st n.1
      let st1 := setPlainState cs.2 n.2.1
      let wfs := writeIfChanged fs markdownPath n.1
      let ignore1 : List (String × Int) :=
        if wfs.1 then incIgnore [] markdownPath 4 else []
      let itemsH := itemsHash n.2.2
      match boldWidgetPath with
      | some bp =>
        if st1.mainBoldHash != some itemsH
            || st1.boldItemsHash != some itemsH then
          let wfs2 := writeIfChanged wfs.2 bp (boldItemsToPlasmaHtml n.2.2)
          let ignore2 := if wfs2.1 then incIgnore ignore1 bp 4 else ignore1
          let st2 := { st1 with
            boldItemsHash := some itemsH
            mainBoldHash := some itemsH }
          (if ignore2.isEmpty then none else some ignore2, st2, wfs2.2)
        else
          let st2 := { st1 with mainBoldHash := some itemsH }
          (if ignore1.isEmpty then none else some ignore1, st2, wfs.2)
      | none =>
        let st2 := { st1 with mainBoldHash := some itemsH }
        (if ignore1.isEmpty then none else some ignore1, st2, wfs.2)

/-- The write phase of `PlasmaSync._from_bold_mirror`, once the new main
HTML has been computed: write the main widget, regenerate the markdown
and the canonical mirror, and assemble the change map. -/
def fromBoldMirrorWrite (st1 : SyncState) (fs : List (String × List Char))
    (widgetPath markdownPath bp : String) (newMainHtml : List Char) :
    Option (List (String × Int)) × SyncState × List (String × List Char) :=
  let wfs := writeIfChanged fs widgetPath newMainHtml
  let ignore1 : List (String × Int) :=
    if wfs.1 then incIgnore [] widgetPath 4 else []
  let n := mainHtmlToMarkdownAndItems newMainHtml
  let cs := updateMdState st1 n.1
  let st2 := setPlainState cs.2 n.2.1
  let wfs2 := writeIfChanged wfs.2 markdownPath n.1
  let ignore2 :=
    if wfs2.1 then incIgnore ignore1 markdownPath 4 else ignore1
  let wfs3 := writeIfChanged wfs2.2 bp (boldItemsToPlasmaHtml n.2.2)
  let ignore3 := if wfs3.1 then incIgnore ignore2 bp 4 else ignore2
  let items2H := itemsHash n.2.2
  let st3 := { st2 with
    mainBoldHash := some items2H
    boldItemsHash := some items2H }
  (if ignore3.isEmpty then none else some ignore3, st3, wfs3.2)

/-- `PlasmaSync._from_bold_mirror(widget_path, markdown_path,
bold_widget_path)`: apply the mirror's bold items to the main widget,
then regenerate markdown and the canonical mirror. -/
def fromBoldMirror (st : SyncState) (fs : List (String × List Char))
    (widgetPath markdownPath : String) (boldWidgetPath : Option String) :
    Option (List (String × Int)) × SyncState × List (String × List Char) :=
  match boldWidgetPath with
  | none => (none, st, fs)
  | some bp =>
    if !(fsExists fs bp) then (none, st, fs)
    else
      let boldHtmlRaw := readFsFile fs bp
      if boldHtmlRaw.isEmpty then (none, st, fs)
      else
        let boldText := htmlToText boldHtmlRaw
        let items := ((splitLinesChars boldText).filter
          (fun ln => !(stripChars ln).isEmpty)).map stripChars
        let itemsH := itemsHash items
        if st.boldItemsHash == some itemsH then (none, st, fs)
        else
          let st1 := { st with boldItemsHash := some itemsH }
          let mainHtmlRaw := readFsFile fs widgetPath
          if mainHtmlRaw.isEmpty then (none, st1, fs)
          else if !(looksLikeCompleteHtml mainHtmlRaw) then (none, st1, fs)
          else
            let mainLines := plasmaHtmlToBoldawareLines mainHtmlRaw
            let newLines := replaceBoldItemsInLines mainLines items
            let newMainHtml := boldawareLinesToPlasmaHtml newLines
            fromBoldMirrorWrite st1 fs widgetPath markdownPath bp
              newMainHtml

/-! ## C3: the change maps of the synchronizer -/

/-- Every entry of a returned change map is `(path, 4)` with the path
among `paths`. -/
def ChangeMapOk (paths : List String) (r : Option (List (String × Int))) :
    Prop :=
  ∀ m, r = some m → ∀ kv ∈ m, kv.2 = 4 ∧ kv.1 ∈ paths

theorem dictGet_eq_default_of_not_dictMem {β : Type}
    (m : List (String × β)) (k : String) (d : β)
    (h : dictMem m k = false) : dictGet m k d = d := by
  unfold dictMem at h
  unfold dictGet
  cases hf : m.find? (fun kv => kv.1 == k) with
  | none => rfl
  | some kv => rw [hf] at h; simp at h

theorem dictMem_of_dictSet {β : Type} (m : List (String × β)) (k q : String)
    (v : β) : dictMem (dictSet m k v) q = ((k == q) || dictMem m q) := by
  induction m with
  | nil =>
    simp only [dictSet]
    cases hq : (k == q) with
    | true => simp [dictMem, List.find?, hq]
    | false => simp [dictMem, List.find?, hq]
  | cons kv rest ih =>
    obtain ⟨a, v0⟩ := kv
    cases hb : (a == k) with
    | true =>
      have ha : a = k := beq_iff_eq.1 hb
      subst ha
      simp only [dictSet, hb, if_true]
      cases hq : (a == q) with
      | true => simp [dictMem, List.find?, hq]
      | false => simp [dictMem, List.find?, hq]
    | false =>
      simp only [dictSet, hb, Bool.false_eq_true, if_false]
      cases hq : (a == q) with
      | true =>
        rw [dictMem_cons_eq (a, v0) (dictSet rest k v) q hq,
          dictMem_cons_eq (a, v0) rest q hq]
        simp
      | false =>
        rw [dictMem_cons_ne (a, v0) (dictSet rest k v) q hq, ih,
          dictMem_cons_ne (a, v0) rest q hq]

theorem incIgnore_ok (paths : List String) (m : List (String × Int))
    (p : String) (hp : p ∈ paths) (hfresh : dictMem m p = false)
    (hok : ∀ kv ∈ m, kv.2 = 4 ∧ kv.1 ∈ paths) :
    ∀ kv ∈ incIgnore m p 4, kv.2 = 4 ∧ kv.1 ∈ paths := by
  intro kv hkv
  rcases mem_dictSet m p _ kv hkv with h1 | h1
  · exact hok kv h1
  · subst h1
    refine ⟨?_, hp⟩
    show dictGet m p 0 + 4 = 4
    rw [dictGet_eq_default_of_not_dictMem m p 0 hfresh]
    norm_num

theorem changeMapOk_some (paths : List String)
    (ig : List (String × Int))
    (hok : ∀ kv ∈ ig, kv.2 = 4 ∧ kv.1 ∈ paths) :
    ChangeMapOk paths (some ig) := by
  intro m hm kv hkv
  rw [Option.some.injEq] at hm
  exact hok kv (hm ▸ hkv)

theorem changeMapOk_none (paths : List String) :
    ChangeMapOk paths none := by
  intro m hm
  exact absurd hm (by simp)

theorem fromMarkdown_change_map_ok (st : SyncState)
    (fs : List (String × List Char)) (mdP wP : String)
    (bpO : Option String) (hmw : (mdP == wP) = false)
    (hbm : ∀ bp, bpO = some bp → (mdP == bp) = false)
    (hbw : ∀ bp, bpO = some bp → (wP == bp) = false) :
    ChangeMapOk (mdP :: wP :: bpO.toList)
      (fromMarkdown st fs mdP wP bpO).1 := by
  have hokm : ∀ kv ∈ incIgnore [] mdP 4,
      kv.2 = 4 ∧ kv.1 ∈ mdP :: wP :: bpO.toList :=
    incIgnore_ok _ [] mdP (List.mem_cons_self _ _) rfl
      (by intro kv h; cases h)
  have hfw : ∀ ig1 : List (String × Int),
      (∀ kv ∈ ig1, kv.2 = 4 ∧ kv.1 ∈ mdP :: wP :: bpO.toList) →
      dictMem ig1 wP = false →
      ∀ kv ∈ incIgnore ig1 wP 4,
        kv.2 = 4 ∧ kv.1 ∈ mdP :: wP :: bpO.toList :=
    fun ig1 hok hf => incIgnore_ok _ ig1 wP
      (List.mem_cons_of_mem _ (List.mem_cons_self _ _)) hf hok
  cases bpO with
  | none =>
    simp only [fromMarkdown]
    split_ifs with h0 h1 h2 h3 h4 <;>
      first
        | exact changeMapOk_none _
        | (exfalso; assumption)
        | (apply changeMapOk_some
           <;> first
            | (intro kv h; exact absurd h (List.not_mem_nil kv))
            | exact hokm
            | (apply hfw _ hokm (by
                simp only [incIgnore, dictMem_of_dictSet]
                simp [dictMem, hmw]))
            | (apply hfw [] (by intro kv h; cases h) rfl)
            | (apply hfw _ (by intro kv h; cases h) (by simp [dictMem])))
  | some bp =>
    have hbm' := hbm bp rfl
    have hbw' := hbw bp rfl
    have hfb : ∀ ig : List (String × Int),
        (∀ kv ∈ ig, kv.2 = 4 ∧ kv.1 ∈ mdP :: wP :: [bp]) →
        dictMem ig bp = false →
        ∀ kv ∈ incIgnore ig bp 4, kv.2 = 4 ∧ kv.1 ∈ mdP :: wP :: [bp] :=
      fun ig hok hf => incIgnore_ok _ ig bp (by simp) hf hok
    simp only [fromMarkdown]
    split_ifs with h0 h1 h2 h3 h4 h5 <;>
      first
        | exact changeMapOk_none _
        | (exfalso; assumption)
        | (apply changeMapOk_some
           <;> first
            | (intro kv h; exact absurd h (List.not_mem_nil kv))
            | exact hokm
            | (apply hfw _ hokm (by
                simp only [incIgnore, dictMem_of_dictSet]
                simp [dictMem, hmw]))
            | (apply hfw [] (by intro kv h; cases h) rfl)
            | (apply hfb _ hokm (by
                simp only [incIgnore, dictMem_of_dictSet]
                simp [dictMem, hbm']))
            | (apply hfb _ (hfw _ hokm (by
                simp only [incIgnore, dictMem_of_dictSet]
                simp [dictMem, hmw])) (by
                simp only [incIgnore, dictMem_of_dictSet]
                simp [dictMem, hbm', hbw']))
            | (apply hfb _ (hfw [] (by intro kv h; cases h) rfl) (by
                simp only [incIgnore, dictMem_of_dictSet]
                simp [dictMem, hbw']))
            | (apply hfb [] (by intro kv h; cases h) rfl))

theorem fromMainPlasma_change_map_ok (st : SyncState)
    (fs : List (String × List Char)) (mdP : String)
    (bpO : Option String) (htmlP : String)
    (hmb : ∀ bp, bpO = some bp → (mdP == bp) = false) :
    ChangeMapOk (mdP :: bpO.toList)
      (fromMainPlasma st fs mdP bpO htmlP).1 := by
  have hokm : ∀ kv ∈ incIgnore [] mdP 4,
      kv.2 = 4 ∧ kv.1 ∈ mdP :: bpO.toList :=
    incIgnore_ok _ [] mdP (List.mem_cons_self _ _) rfl
      (by intro kv h; exact absurd h (List.not_mem_nil kv))
  cases bpO with
  | none =>
    simp only [fromMainPlasma]
    split_ifs <;>
      first
        | exact changeMapOk_none _
        | (exfalso; assumption)
        | (apply changeMapOk_some
           <;> first
            | (intro kv h; exact absurd h (List.not_mem_nil kv))
            | exact hokm)
  | some bp =>
    have hmb' := hmb bp rfl
    have hfb : ∀ ig : List (String × Int),
        (∀ kv ∈ ig, kv.2 = 4 ∧ kv.1 ∈ mdP :: [bp]) →
        dictMem ig bp = false →
        ∀ kv ∈ incIgnore ig bp 4, kv.2 = 4 ∧ kv.1 ∈ mdP :: [bp] :=
      fun ig hok hf => incIgnore_ok _ ig bp (by simp) hf hok
    simp only [fromMainPlasma]
    split_ifs <;>
      first
        | exact changeMapOk_none _
        | (exfalso; assumption)
        | (apply changeMapOk_some
           <;> first
            | (intro kv h; exact absurd h (List.not_mem_nil kv))
            | exact hokm
            | (apply hfb _ hokm (by
                simp only [incIgnore, dictMem_of_dictSet]
                simp [dictMem, hmb']))
            | (apply hfb [] (by
                intro kv h; exact absurd h (List.not_mem_nil kv)) rfl))

theorem fromBoldMirrorWrite_change_map_ok (st1 : SyncState)
    (fs : List (String × List Char)) (wP mdP bp : String)
    (h : List Char) (hwm : (wP == mdP) = false)
    (hwb : (wP == bp) = false) (hmb : (mdP == bp) = false) :
    ChangeMapOk (wP :: mdP :: [bp])
      (fromBoldMirrorWrite st1 fs wP mdP bp h).1 := by
  have hokw : ∀ kv ∈ incIgnore [] wP 4,
      kv.2 = 4 ∧ kv.1 ∈ wP :: mdP :: [bp] :=
    incIgnore_ok _ [] wP (List.mem_cons_self _ _) rfl
      (by intro kv hk; exact absurd hk (List.not_mem_nil kv))
  have hfm : ∀ ig : List (String × Int),
      (∀ kv ∈ ig, kv.2 = 4 ∧ kv.1 ∈ wP :: mdP :: [bp]) →
      dictMem ig mdP = false →
      ∀ kv ∈ incIgnore ig mdP 4, kv.2 = 4 ∧ kv.1 ∈ wP :: mdP :: [bp] :=
    fun ig hok hf => incIgnore_ok _ ig mdP (by simp) hf hok
  have hfb : ∀ ig : List (String × Int),
      (∀ kv ∈ ig, kv.2 = 4 ∧ kv.1 ∈ wP :: mdP :: [bp]) →
      dictMem ig bp = false →
      ∀ kv ∈ incIgnore ig bp 4, kv.2 = 4 ∧ kv.1 ∈ wP :: mdP :: [bp] :=
    fun ig hok hf => incIgnore_ok _ ig bp (by simp) hf hok
  simp only [fromBoldMirrorWrite]
  split_ifs <;>
    first
      | exact changeMapOk_none _
      | (exfalso; assumption)
      | (apply changeMapOk_some
         <;> first
          | (intro kv hk; exact absurd hk (List.not_mem_nil kv))
          | exact hokw
          | (apply hfm _ hokw (by
              simp only [incIgnore, dictMem_of_dictSet]
              simp [dictMem, hwm]))
          | (apply hfm [] (by
              intro kv hk; exact absurd hk (List.not_mem_nil kv)) rfl)
          | (apply hfb _ hokw (by
              simp only [incIgnore, dictMem_of_dictSet]
              simp [dictMem, hwb]))
          | (apply hfb _ (hfm _ hokw (by
              simp only [incIgnore, dictMem_of_dictSet]
              simp [dictMem, hwm])) (by
              simp only [incIgnore, dictMem_of_dictSet]
              simp [dictMem, hwb, hmb]))
          | (apply hfb _ (hfm [] (by
              intro kv hk; exact absurd hk (List.not_mem_nil kv)) rfl) (by
              simp only [incIgnore, dictMem_of_dictSet]
              simp [dictMem, hmb]))
          | (apply hfb [] (by
              intro kv hk; exact absurd hk (List.not_mem_nil kv)) rfl))

theorem fromBoldMirror_change_map_ok (st : SyncState)
    (fs : List (String × List Char)) (wP mdP : String)
    (bpO : Option String) (hwm : (wP == mdP) = false)
    (hwb : ∀ bp, bpO = some bp → (wP == bp) = false)
    (hmb : ∀ bp, bpO = some bp → (mdP == bp) = false) :
    ChangeMapOk (wP :: mdP :: bpO.toList)
      (fromBoldMirror st fs wP mdP bpO).1 := by
  cases bpO with
  | none =>
    simp only [fromBoldMirror]
    exact changeMapOk_none _
  | some bp =>
    have hwb' := hwb bp rfl
    have hmb' := hmb bp rfl
    simp only [fromBoldMirror]
    split_ifs <;>
      first
        | exact changeMapOk_none _
        | exact fromBoldMirrorWrite_change_map_ok _ _ _ _ _ _ hwm hwb' hmb'

/-- C3: whenever the Plasma synchronizer writes one of the markdown,
main-widget, or bold-mirror files while handling one event, every entry
of the change map it returns is one of the three configured paths mapped
to exactly 4 (the code calls `_inc_ignore(change_map, path, 4)`, not 1),
provided the configured paths are pairwise distinct. -/
theorem change_map_entries_are_four (st : SyncState)
    (fs : List (String × List Char)) (mdP wP : String)
    (bpO : Option String) (htmlP : String)
    (hmw : (mdP == wP) = false)
    (hmb : ∀ bp, bpO = some bp → (mdP == bp) = false)
    (hwb : ∀ bp, bpO = some bp → (wP == bp) = false) :
    ChangeMapOk (mdP :: wP :: bpO.toList) (fromMarkdown st fs mdP wP bpO).1 ∧
    ChangeMapOk (mdP :: bpO.toList) (fromMainPlasma st fs mdP bpO htmlP).1 ∧
    ChangeMapOk (wP :: mdP :: bpO.toList)
      (fromBoldMirror st fs wP mdP bpO).1 := by
  have hwm : (wP == mdP) = false := by
    rw [beq_eq_false_iff_ne] at hmw ⊢
    exact hmw.symm
  exact ⟨fromMarkdown_change_map_ok st fs mdP wP bpO hmw hmb hwb,
    fromMainPlasma_change_map_ok st fs mdP bpO htmlP hmb,
    fromBoldMirror_change_map_ok st fs wP mdP bpO hwm hwb hmb⟩

theorem change_map_entries_are_four_witness :
    ChangeMapOk ["md", "w", "b"]
      (fromMarkdown ⟨none, none, none, none, none, none⟩ [] "md" "w"
        (some "b")).1 ∧
    ChangeMapOk ["md", "b"]
      (fromMainPlasma ⟨none, none, none, none, none, none⟩ [] "md"
        (some "b") "h").1 ∧
    ChangeMapOk ["w", "md", "b"]
      (fromBoldMirror ⟨none, none, none, none, none, none⟩ [] "w" "md"
        (some "b")).1 :=
  change_map_entries_are_four ⟨none, none, none, none, none, none⟩ []
    "md" "w" (some "b") "h" (by decide)
    (fun bp h => by cases h; decide) (fun bp h => by cases h; decide)

/-- C3 counterexample to the literal wording: handling a markdown event
on file `md` containing `a` writes the main widget `w` and returns the
change map `[("w", 4)]`, which maps the written path `w` to 4, not 1. -/
theorem change_map_counts_four_counterexample :
    (fromMarkdown ⟨none, none, none, none, none, none⟩
      [("md", ("a").data)] "md" "w" none).1 = some [("w", 4)] ∧
    (4 : Int) ≠ 1 := by
  constructor
  · rfl
  · decide

/-! ## C4: the shape of the generated main-widget HTML -/

theorem escapeHtmlChars_cons_default (a : Char) (rest : List Char)
    (h1 : a ≠ '&') (h2 : a ≠ '<') (h3 : a ≠ '>') :
    escapeHtmlChars (a :: rest) = a :: escapeHtmlChars rest := by
  rw [escapeHtmlChars.eq_def]
  split
  next h => cases h
  next r h => injection h with ha hr; exact absurd ha h1
  next r h => injection h with ha hr; exact absurd ha h2
  next r h => injection h with ha hr; exact absurd ha h3
  next c r hc1 hc2 hc3 h => injection h with ha hr; rw [ha, hr]

theorem escapeHtmlChars_no_lt (s : List Char) :
    ∀ c ∈ escapeHtmlChars s, (c == '<') = false := by
  induction s with
  | nil => intro c hc; exact absurd hc (List.not_mem_nil c)
  | cons a rest ih =>
    intro c hc
    by_cases h1 : a = '&'
    · subst h1
      rw [show escapeHtmlChars ('&' :: rest)
          = '&' :: 'a' :: 'm' :: 'p' :: ';' :: escapeHtmlChars rest
          from rfl] at hc
      simp only [List.mem_cons] at hc
      rcases hc with h|h|h|h|h|h
      · subst h; decide
      · subst h; decide
      · subst h; decide
      · subst h; decide
      · subst h; decide
      · exact ih c h
    · by_cases h2 : a = '<'
      · subst h2
        rw [show escapeHtmlChars ('<' :: rest)
            = '&' :: 'l' :: 't' :: ';' :: escapeHtmlChars rest
            from rfl] at hc
        simp only [List.mem_cons] at hc
        rcases hc with h|h|h|h|h
        · subst h; decide
        · subst h; decide
        · subst h; decide
        · subst h; decide
        · exact ih c h
      · by_cases h3 : a = '>'
        · subst h3
          rw [show escapeHtmlChars ('>' :: rest)
              = '&' :: 'g' :: 't' :: ';' :: escapeHtmlChars rest
              from rfl] at hc
          simp only [List.mem_cons] at hc
          rcases hc with h|h|h|h|h
          · subst h; decide
          · subst h; decide
          · subst h; decide
          · subst h; decide
          · exact ih c h
        · rw [escapeHtmlChars_cons_default a rest h1 h2 h3] at hc
          simp only [List.mem_cons] at hc
          rcases hc with h|h
          · subst h
            exact beq_eq_false_iff_ne.mpr h2
          · exact ih c h

/-- The last character of `x`, or `p` if `x` is empty. -/
def lastD (x : List Char) (p : Char) : Char :=
  match x with
  | [] => p
  | a :: rest => lastD rest a

/-- Scans `s` (with `prev` the character preceding it) for an occurrence
of `<` immediately followed by `u` or `l`, the only way a `<ul` or `<li`
tag can start. -/
def noUlLiAfter (prev : Char) : List Char → Bool
  | [] => true
  | c :: rest =>
    !((prev == '<') && (c == 'u' || c == 'l')) && noUlLiAfter c rest

theorem noUlLiAfter_cons (p a : Char) (x : List Char) :
    noUlLiAfter p (a :: x) =
      (!((p == '<') && (a == 'u' || a == 'l')) && noUlLiAfter a x) := rfl

theorem lastD_append (x y : List Char) (p : Char) :
    lastD (x ++ y) p = lastD y (lastD x p) := by
  induction x generalizing p with
  | nil => rfl
  | cons a rest ih => exact ih a

theorem noUlLiAfter_append (x y : List Char) (p : Char) :
    noUlLiAfter p (x ++ y) =
      (noUlLiAfter p x && noUlLiAfter (lastD x p) y) := by
  induction x generalizing p with
  | nil => simp [noUlLiAfter, lastD]
  | cons a rest ih =>
    rw [List.cons_append, noUlLiAfter_cons, noUlLiAfter_cons, ih a,
      Bool.and_assoc]
    rfl

/-- An HTML fragment that can never contribute to a `<ul` or `<li`
occurrence: whatever non-`<` character precedes it, no such pair occurs
in it, and it does not end in `<`. -/
def NoListTagChunk (x : List Char) : Prop :=
  (∀ p, (p == '<') = false → noUlLiAfter p x = true) ∧
  (∀ p, (p == '<') = false → (lastD x p == '<') = false)

theorem noListTagChunk_append (x y : List Char)
    (hx : NoListTagChunk x) (hy : NoListTagChunk y) :
    NoListTagChunk (x ++ y) := by
  constructor
  · intro p hp
    rw [noUlLiAfter_append, hx.1 p hp, hy.1 _ (hx.2 p hp)]
    rfl
  · intro p hp
    rw [lastD_append]
    exact hy.2 _ (hx.2 p hp)

theorem noListTagChunk_of_closed (x : List Char)
    (h1 : noUlLiAfter 'a' x = true)
    (h2 : (lastD x 'a' == '<') = false) :
    NoListTagChunk x := by
  constructor
  · intro p hp
    cases x with
    | nil => rfl
    | cons b rest =>
      rw [noUlLiAfter_cons] at h1 ⊢
      rw [Bool.and_eq_true] at h1 ⊢
      exact ⟨by rw [hp]; rfl, h1.2⟩
  · intro p hp
    cases x with
    | nil => exact hp
    | cons b rest => exact h2

theorem noListTagChunk_of_no_lt (x : List Char)
    (h : ∀ c ∈ x, (c == '<') = false) :
    NoListTagChunk x := by
  constructor
  · induction x with
    | nil => intro p _; rfl
    | cons b rest ih =>
      intro p hp
      rw [noUlLiAfter_cons, Bool.and_eq_true]
      refine ⟨by rw [hp]; rfl, ?_⟩
      exact ih (fun c hc => h c (List.mem_cons_of_mem _ hc)) b
        (h b (List.mem_cons_self _ _))
  · induction x with
    | nil => intro p hp; exact hp
    | cons b rest ih =>
      intro p hp
      exact ih (fun c hc => h c (List.mem_cons_of_mem _ hc)) b
        (h b (List.mem_cons_self _ _))

theorem containsSub_eq_false_of_noUlLi (d : Char)
    (hd : (d == 'u' || d == 'l') = true) (cs : List Char) :
    ∀ (p : Char) (s : List Char), noUlLiAfter p s = true →
    containsSub ('<' :: d :: cs) s = false := by
  intro p s
  induction s generalizing p with
  | nil => intro _; rfl
  | cons a rest ih =>
    intro h
    rw [noUlLiAfter_cons, Bool.and_eq_true] at h
    have hrec := ih a h.2
    show (if listStartsWith (a :: rest) ('<' :: d :: cs) then true
      else containsSub ('<' :: d :: cs) rest) = false
    rw [hrec]
    by_cases hs : listStartsWith (a :: rest) ('<' :: d :: cs) = true
    · exfalso
      unfold listStartsWith at hs
      cases rest with
      | nil =>
        simp at hs
      | cons b rest2 =>
        have hab : a = '<' ∧ b = d := by
          simp only [List.length_cons, List.take_succ_cons] at hs
          rw [List.cons_beq_cons, List.cons_beq_cons,
            Bool.and_eq_true, Bool.and_eq_true] at hs
          exact ⟨beq_iff_eq.mp hs.1, beq_iff_eq.mp hs.2.1⟩
        have hflag := h.2
        rw [noUlLiAfter_cons, Bool.and_eq_true] at hflag
        rw [hab.1, hab.2] at hflag
        have hlt : (('<' : Char) == '<') = true := by decide
        rw [hlt, hd] at hflag
        simp at hflag
    · rw [Bool.not_eq_true] at hs
      rw [hs]
      rfl

theorem noListTagChunk_renderMdLine (line : List Char) :
    NoListTagChunk (renderMdLine line) := by
  have hesc : ∀ s, NoListTagChunk (escapeHtmlChars s) :=
    fun s => noListTagChunk_of_no_lt _ (escapeHtmlChars_no_lt s)
  unfold renderMdLine
  split_ifs with h0
  · exact noListTagChunk_of_closed _ (by decide) (by decide)
  · split
    · split
      · repeat' apply noListTagChunk_append
        all_goals
          first
            | exact hesc _
            | exact noListTagChunk_of_closed _ (by decide) (by decide)
      · repeat' apply noListTagChunk_append
        all_goals
          first
            | exact hesc _
            | exact noListTagChunk_of_closed _ (by decide) (by decide)
    · split
      · repeat' apply noListTagChunk_append
        all_goals
          first
            | exact hesc _
            | exact noListTagChunk_of_closed _ (by decide) (by decide)
      · repeat' apply noListTagChunk_append
        all_goals
          first
            | exact hesc _
            | exact noListTagChunk_of_closed _ (by decide) (by decide)

theorem noListTagChunk_flatMapRender (lines : List (List Char)) :
    NoListTagChunk (lines.flatMap renderMdLine) := by
  induction lines with
  | nil =>
    exact noListTagChunk_of_no_lt _
      (fun c hc => absurd hc (List.not_mem_nil c))
  | cons l rest ih =>
    rw [List.flatMap_cons]
    exact noListTagChunk_append _ _ (noListTagChunk_renderMdLine l) ih

set_option maxRecDepth 8000 in
theorem noListTagChunk_markdownToPlasmaHtml (md : List Char) :
    NoListTagChunk (markdownToPlasmaHtml md) := by
  unfold markdownToPlasmaHtml
  apply noListTagChunk_append
  · apply noListTagChunk_append
    · exact noListTagChunk_of_closed _ (by decide) (by decide)
    · exact noListTagChunk_flatMapRender _
  · exact noListTagChunk_of_closed _ (by decide) (by decide)

/-- C4: for every document the markdown-to-main-HTML serializer emits
no `<ul>` or `<li>` element at all: the output is the fixed header, the
per-line renderings and the footer, and every line (list items included)
is rendered as either the empty-paragraph element or a single
`<p style="...">...</p>` paragraph. -/
theorem markdown_html_flat_paragraphs (md : List Char) :
    containsSub (("<ul").data) (markdownToPlasmaHtml md) = false ∧
    containsSub (("<li").data) (markdownToPlasmaHtml md) = false ∧
    markdownToPlasmaHtml md =
      plasmaHeader.data
        ++ (splitLinesChars (normalizeMarkdownBold md).1).flatMap
            renderMdLine
        ++ plasmaFooter.data ∧
    ∀ line, renderMdLine line = pEmpty ∨
      ∃ body, renderMdLine line = pOpen ++ body ++ ("</p>\n").data := by
  have hchunk := noListTagChunk_markdownToPlasmaHtml md
  refine ⟨?_, ?_, rfl, ?_⟩
  · exact containsSub_eq_false_of_noUlLi 'u' (by decide) ['l'] 'a' _
      (hchunk.1 'a' (by decide))
  · exact containsSub_eq_false_of_noUlLi 'l' (by decide) ['i'] 'a' _
      (hchunk.1 'a' (by decide))
  · intro line
    unfold renderMdLine
    split_ifs with h0
    · exact Or.inl rfl
    · split
      next pfx rest hsp =>
        split
        next inner heq =>
          refine Or.inr ⟨escapeHtmlChars pfx ++ boldSpanOpen.data
            ++ escapeHtmlChars inner ++ ("</span>").data, ?_⟩
          rw [show (("</span></p>\n").data : List Char)
            = ("</span>").data ++ ("</p>\n").data from rfl]
          simp [List.append_assoc]
        next heq =>
          exact Or.inr ⟨escapeHtmlChars line, by simp [List.append_assoc]⟩
      next hsp =>
        split
        next inner2 heq =>
          refine Or.inr ⟨boldSpanOpen.data ++ escapeHtmlChars inner2
            ++ ("</span>").data, ?_⟩
          rw [show (("</span></p>\n").data : List Char)
            = ("</span>").data ++ ("</p>\n").data from rfl]
          simp [List.append_assoc]
        next heq =>
          exact Or.inr ⟨escapeHtmlChars line, by simp [List.append_assoc]⟩


set_option maxRecDepth 30000 in
/-- C4 counterexample to the literal wording: `- [ ] eggs` is a
list-item line (the prefix regex matches), yet the serialized document
for `- [ ] eggs\n- [x] milk` contains no `<ul` and no `<li` substring.
-/
theorem ul_li_never_emitted_counterexample :
    (listPrefixSplit (("- [ ] eggs").data)).isSome = true ∧
    containsSub (("<ul").data)
      (markdownToPlasmaHtml (("- [ ] eggs\n- [x] milk").data)) = false ∧
    containsSub (("<li").data)
      (markdownToPlasmaHtml (("- [ ] eggs\n- [x] milk").data)) = false := by
  refine ⟨rfl, ?_, ?_⟩ <;> rfl

/-! ## `lib/args.py`: per-file directives (C9)

Embeds `get_args_from_file` and the `parse_args` front-end over
`argparse` (flags registered with `add_argument(flag, dest=...,
action="store_true", default=...)` for `bool` entries and
`add_argument(flag, dest=..., type=..., nargs="+", default=...)`
otherwise, under `add_help=False, allow_abbrev=False` and
`parse_known_args`).  A file is modelled after `shlex.split` as a list
of token lines; `str.isalpha`/`str.isalnum` are modelled on their ASCII
fragment.  `argparse`'s `SystemExit` (caught by `parse_args`, which then
returns `({}, args)`) is the `Option.none` result of the token walk. -/

/-- A parsed Python value held in an argparse namespace or merged known
map: `None`, a bool, a plain string, or a list of strings. -/
inductive PyVal where
  | none : PyVal
  | bool (b : Bool) : PyVal
  | str (s : String) : PyVal
  | list (xs : List String) : PyVal
deriving DecidableEq

/-- One template entry `(flag, typ, default, desc)`: the flag text,
whether `typ is bool`, and the default (the description is unused). -/
structure ArgSpec where
  flag : String
  isBool : Bool
  dflt : PyVal
deriving DecidableEq

/-- Python `value in (None, "")` (`False`, lists and non-empty strings
all compare unequal to both). -/
def pyIsNoneOrEmptyStr (v : PyVal) : Bool :=
  match v with
  | PyVal.none => true
  | PyVal.str s => s.isEmpty
  | _ => false

/-- `flag.lstrip("-").replace("-", "_")`: the argparse destination. -/
def destOf (flag : String) : String :=
  String.mk ((flag.data.dropWhile (fun c => c == '-')).map
    (fun c => if c == '-' then '_' else c))

/-- `is_valid_flag_token` from `get_args_from_file`: starts with `--`,
the part before `=` has a letter at index 2 and only alphanumerics, `_`
or `-` after it. -/
def isValidFlagToken (t : String) : Bool :=
  match t.data with
  | '-' :: '-' :: rest =>
    match rest.takeWhile (fun c => c != '=') with
    | [] => false
    | c :: cs =>
      c.isAlpha && cs.all (fun ch => ch.isAlphanum || ch == '_' || ch == '-')
  | _ => false

/-- argparse's `_negative_number_matcher`, `^-\d+$|^-\d*\.\d+$`. -/
def negNumberTok (t : String) : Bool :=
  match t.data with
  | '-' :: rest =>
    (!rest.isEmpty && rest.all (fun c => c.isDigit))
      || (match rest.dropWhile (fun c => c.isDigit) with
          | '.' :: fs => !fs.isEmpty && fs.all (fun c => c.isDigit)
          | _ => false)
  | _ => false

/-- argparse `_parse_optional` returning non-`None`: the token is
treated as an optional (known or unknown).  Tokens not starting with
`-`, a lone `-`, negative numbers (the parser has no digit-like option
strings) and tokens containing a space are positionals. -/
def looksLikeOptionTok (t : String) : Bool :=
  match t.data with
  | '-' :: _ :: _ =>
    !negNumberTok t && !(t.data.contains ' ')
  | _ => false

/-- Split `--flag=value` at the first `=` (argparse's
`arg_string.split("=", 1)`). -/
def splitEqTok (t : String) : String × Option String :=
  let pre := t.data.takeWhile (fun c => c != '=')
  if pre.length == t.data.length then (t, Option.none)
  else (String.mk pre, Option.some (String.mk (t.data.drop (pre.length + 1))))

/-- The declared option matching an option string exactly
(`allow_abbrev=False`). -/
def findSpec (tmpl : List ArgSpec) (head : String) : Option ArgSpec :=
  tmpl.find? (fun s => s.flag == head)

/-- The `parse_known_args` token walk.  Known `store_true` flags set
their destination to `True` (an explicit `=` argument is an error);
known variadic flags bind the `=` argument or the following positional
run (empty run is an "expected at least one argument" error); `--`
stops option processing and sends the remaining tokens to the extras;
everything else is an extra.  Errors (`SystemExit`) are `Option.none`;
the fuel argument is `tokens.length`, which the walk never exhausts
since every step consumes at least one token. -/
def runArgparseAux (tmpl : List ArgSpec) :
    Nat → List String → List (String × PyVal) → List String →
    Option (List (String × PyVal) × List String)
  | 0, toks, ns, ex =>
    match toks with
    | [] => Option.some (ns, ex)
    | _ :: _ => Option.none
  | _ + 1, [], ns, ex => Option.some (ns, ex)
  | fuel + 1, tok :: rest, ns, ex =>
    if tok == "--" then Option.some (ns, ex ++ rest)
    else if looksLikeOptionTok tok then
      match findSpec tmpl (splitEqTok tok).1 with
      | Option.none => runArgparseAux tmpl fuel rest ns (ex ++ [tok])
      | Option.some s =>
        if s.isBool then
          match (splitEqTok tok).2 with
          | Option.some _ => Option.none
          | Option.none =>
            runArgparseAux tmpl fuel rest
              (dictSet ns (destOf s.flag) (PyVal.bool true)) ex
        else
          match (splitEqTok tok).2 with
          | Option.some v =>
            runArgparseAux tmpl fuel rest
              (dictSet ns (destOf s.flag) (PyVal.list [v])) ex
          | Option.none =>
            match rest.takeWhile (fun u => !looksLikeOptionTok u) with
            | [] => Option.none
            | v :: vs =>
              runArgparseAux tmpl fuel
                (rest.drop (v :: vs).length)
                (dictSet ns (destOf s.flag) (PyVal.list (v :: vs))) ex
    else runArgparseAux tmpl fuel rest ns (ex ++ [tok])

/-- `parse_args(args, template)`: namespace defaults in template order,
then the token walk; on `SystemExit` return `({}, args)`. -/
def pyParseArgs (tmpl : List ArgSpec) (args : List String) :
    List (String × PyVal) × List String :=
  let ns0 := tmpl.foldl (fun m s => dictSet m (destOf s.flag) s.dflt) []
  match runArgparseAux tmpl args.length args ns0 [] with
  | Option.some r => r
  | Option.none => ([], args)

/-- The `collect "--flag" + values until next flag` loop of
`get_args_from_file` as a state machine: before the first valid flag
token everything is dropped, afterwards everything is kept. -/
def collectCliAux : List String → Bool → List String
  | [], _ => []
  | t :: rest, inGroup =>
    if isValidFlagToken t then t :: collectCliAux rest true
    else if inGroup then t :: collectCliAux rest true
    else collectCliAux rest false

def collectCli (tokens : List String) : List String :=
  collectCliAux tokens false

/-- The `for key, value in line_known.items()` body of
`get_args_from_file`: skip `None`/`""`, extend `arg_lines[key]` by the
line number once per list element (once for non-lists), then merge into
the known map (first write wins the slot; two lists concatenate; any
other collision overwrites). -/
def mergeOneKV (lineno : Nat)
    (acc : List (String × PyVal) × List (String × List Nat))
    (kv : String × PyVal) :
    List (String × PyVal) × List (String × List Nat) :=
  if pyIsNoneOrEmptyStr kv.2 then acc
  else
    let count := match kv.2 with | PyVal.list xs => xs.length | _ => 1
    let argLines2 := dictSet acc.2 kv.1
      (dictGet acc.2 kv.1 [] ++ List.replicate count lineno)
    match dictFind acc.1 kv.1 with
    | Option.none => (dictSet acc.1 kv.1 kv.2, argLines2)
    | Option.some old =>
      if pyIsNoneOrEmptyStr old then (dictSet acc.1 kv.1 kv.2, argLines2)
      else
        match old, kv.2 with
        | PyVal.list a, PyVal.list b =>
          (dictSet acc.1 kv.1 (PyVal.list (a ++ b)), argLines2)
        | _, _ => (dictSet acc.1 kv.1 kv.2, argLines2)

/-- One iteration of the `for lineno, raw_line in enumerate(lines, 1)`
loop: gate on the first token being a valid flag, collect the cli
tokens, parse them, account the unknowns, and fold the known values. -/
def processLine (tmpl : List ArgSpec) (lineno : Nat) (tokens : List String)
    (acc : List (String × PyVal) × List String × List (String × List Nat)) :
    List (String × PyVal) × List String × List (String × List Nat) :=
  match tokens with
  | [] => acc
  | t0 :: _ =>
    if !isValidFlagToken t0 then acc
    else
      let cli := collectCli tokens
      if cli.isEmpty then acc
      else
        let pr := pyParseArgs tmpl cli
        let unknown2 := acc.2.1 ++ pr.2
        let argLines1 :=
          if pr.2.isEmpty then acc.2.2
          else dictSet acc.2.2 "__unknown__"
            (dictGet acc.2.2 "__unknown__" []
              ++ List.replicate pr.2.length lineno)
        let m := pr.1.foldl (mergeOneKV lineno) (acc.1, argLines1)
        (m.1, unknown2, m.2)

def getArgsLoop (tmpl : List ArgSpec) :
    Nat → List (List String) →
    List (String × PyVal) × List String × List (String × List Nat) →
    List (String × PyVal) × List String × List (String × List Nat)
  | _, [], acc => acc
  | lineno, tks :: rest, acc =>
    getArgsLoop tmpl (lineno + 1) rest (processLine tmpl lineno tks acc)

/-- `get_args_from_file(path, template, only_first_line)` on the token
lines of an existing file (a missing or empty file returns three empty
results before `arg_lines` is seeded with `__unknown__`). -/
def getArgsFromFile (tmpl : List ArgSpec) (lines : List (List String))
    (onlyFirstLine : Bool) :
    List (String × PyVal) × List String × List (String × List Nat) :=
  match lines with
  | [] => ([], [], [])
  | _ :: _ =>
    getArgsLoop tmpl 1 (if onlyFirstLine then lines.take 1 else lines)
      ([], [], [("__unknown__", [])])

theorem dictFind_cons_eq {β : Type} (kv : String × β)
    (rest : List (String × β)) (k : String)
    (hb : (kv.1 == k) = true) :
    dictFind (kv :: rest) k = Option.some kv.2 := by
  simp [dictFind, List.find?, hb]

theorem dictFind_cons_ne {β : Type} (kv : String × β)
    (rest : List (String × β)) (k : String)
    (hb : (kv.1 == k) = false) :
    dictFind (kv :: rest) k = dictFind rest k := by
  simp [dictFind, List.find?, hb]

theorem dictFind_dictSet {β : Type} (m : List (String × β))
    (k q : String) (v : β) :
    dictFind (dictSet m k v) q =
      if (k == q) = true then Option.some v else dictFind m q := by
  induction m with
  | nil =>
    by_cases h : (k == q) = true
    · rw [if_pos h]
      exact dictFind_cons_eq (k, v) [] q h
    · rw [if_neg h, Bool.not_eq_true] at *
      rw [show dictSet ([] : List (String × β)) k v = [(k, v)] from rfl,
        dictFind_cons_ne (k, v) [] q h]
  | cons kv rest ih =>
    rw [show dictSet (kv :: rest) k v
      = if (kv.1 == k) = true then (k, v) :: rest
        else kv :: dictSet rest k v from rfl]
    by_cases ha : (kv.1 == k) = true
    · rw [if_pos ha]
      have ha' : kv.1 = k := beq_iff_eq.mp ha
      by_cases hq : (k == q) = true
      · rw [if_pos hq, dictFind_cons_eq (k, v) rest q hq]
      · rw [Bool.not_eq_true] at hq
        rw [if_neg (by rw [hq]; exact Bool.false_ne_true),
          dictFind_cons_ne (k, v) rest q hq,
          dictFind_cons_ne kv rest q (by rw [ha', hq])]
    · rw [Bool.not_eq_true] at ha
      rw [if_neg (by rw [ha]; exact Bool.false_ne_true)]
      by_cases hkq : (kv.1 == q) = true
      · have hkq' : kv.1 = q := beq_iff_eq.mp hkq
        have hknq : (k == q) = false := by
          rw [beq_eq_false_iff_ne]
          intro he
          rw [beq_eq_false_iff_ne] at ha
          exact ha (hkq'.trans he.symm)
        rw [if_neg (by rw [hknq]; exact Bool.false_ne_true),
          dictFind_cons_eq kv (dictSet rest k v) q hkq,
          dictFind_cons_eq kv rest q hkq]
      · rw [Bool.not_eq_true] at hkq
        rw [dictFind_cons_ne kv (dictSet rest k v) q hkq,
          dictFind_cons_ne kv rest q hkq, ih]

theorem dictGet_eq_of_dictFind_none {β : Type} (m : List (String × β))
    (k : String) (d : β) (h : dictFind m k = Option.none) :
    dictGet m k d = d := by
  unfold dictFind at h
  unfold dictGet
  cases hf : m.find? (fun kv => kv.1 == k) with
  | none => rfl
  | some kv => rw [hf] at h; cases h

theorem dictGet_eq_of_dictFind_some {β : Type} (m : List (String × β))
    (k : String) (d v : β) (h : dictFind m k = Option.some v) :
    dictGet m k d = v := by
  unfold dictFind at h
  unfold dictGet
  cases hf : m.find? (fun kv => kv.1 == k) with
  | none => rw [hf] at h; cases h
  | some kv =>
    rw [hf] at h
    injection h

theorem dictFind_mem {β : Type} (m : List (String × β)) (k : String)
    (v : β) (h : dictFind m k = Option.some v) : (k, v) ∈ m := by
  unfold dictFind at h
  cases hf : m.find? (fun kv => kv.1 == k) with
  | none => rw [hf] at h; cases h
  | some kv =>
    rw [hf] at h
    injection h with h
    have hm := List.mem_of_find?_eq_some hf
    have hp := List.find?_some hf
    have : kv.1 = k := beq_iff_eq.mp hp
    rw [show (k, v) = kv from by
      rw [← this, ← h]]
    exact hm

/-- The first template entry with destination `k` (the slot that argparse
associates with `k`). -/
def specOfDest (tmpl : List ArgSpec) (k : String) : Option ArgSpec :=
  tmpl.find? (fun s => destOf s.flag == k)

theorem specOfDest_of_mem (tmpl : List ArgSpec) :
    (tmpl.map (fun s => destOf s.flag)).Nodup →
    ∀ s ∈ tmpl, specOfDest tmpl (destOf s.flag) = Option.some s := by
  induction tmpl with
  | nil => intro _ s hs; cases hs
  | cons t rest ih =>
    intro hnd s hs
    rw [List.map_cons, List.nodup_cons] at hnd
    rcases List.mem_cons.mp hs with h | h
    · subst h
      simp [specOfDest, List.find?]
    · have hne : (destOf t.flag == destOf s.flag) = false := by
        rw [beq_eq_false_iff_ne]
        intro he
        exact hnd.1 (he ▸ List.mem_map_of_mem _ h)
      have hstep : specOfDest (t :: rest) (destOf s.flag)
          = specOfDest rest (destOf s.flag) := by
        simp [specOfDest, List.find?, hne]
      rw [hstep]
      exact ih hnd.2 s h

theorem specOfDest_isSome_of_mem (tmpl : List ArgSpec) (s : ArgSpec)
    (hs : s ∈ tmpl) : (specOfDest tmpl (destOf s.flag)).isSome = true := by
  unfold specOfDest
  rw [List.find?_isSome]
  exact ⟨s, hs, by simp⟩

theorem specOfDest_dest (tmpl : List ArgSpec) (k : String) (s : ArgSpec)
    (h : specOfDest tmpl k = Option.some s) :
    s ∈ tmpl ∧ destOf s.flag = k := by
  unfold specOfDest at h
  have hm := List.mem_of_find?_eq_some h
  have hp := List.find?_some h
  exact ⟨hm, beq_iff_eq.mp hp⟩

/-- The values an argparse namespace can hold under all-`None` defaults:
every key is a declared destination holding `None`, `True` for a
`store_true` destination, or a string list for a variadic one. -/
def NsProp (tmpl : List ArgSpec) (ns : List (String × PyVal)) : Prop :=
  ∀ kv ∈ ns, ∃ s, specOfDest tmpl kv.1 = Option.some s ∧
    (kv.2 = PyVal.none ∨ (s.isBool = true ∧ kv.2 = PyVal.bool true) ∨
     (s.isBool = false ∧ ∃ xs, kv.2 = PyVal.list xs))

theorem nsProp_dictSet (tmpl : List ArgSpec) (ns : List (String × PyVal))
    (hns : NsProp tmpl ns) (s : ArgSpec)
    (hspec : specOfDest tmpl (destOf s.flag) = Option.some s)
    (v : PyVal)
    (hv : v = PyVal.none ∨ (s.isBool = true ∧ v = PyVal.bool true) ∨
      (s.isBool = false ∧ ∃ xs, v = PyVal.list xs)) :
    NsProp tmpl (dictSet ns (destOf s.flag) v) := by
  intro kv hkv
  rcases mem_dictSet ns (destOf s.flag) v kv hkv with h | h
  · exact hns kv h
  · subst h
    exact ⟨s, hspec, hv⟩

theorem nsFold_prop (tmplAll : List ArgSpec) :
    ∀ (tmpl : List ArgSpec), (∀ s ∈ tmpl, s ∈ tmplAll) →
    (∀ s ∈ tmpl, s.dflt = PyVal.none) →
    ∀ (m : List (String × PyVal)), NsProp tmplAll m →
    NsProp tmplAll
      (tmpl.foldl (fun m2 s => dictSet m2 (destOf s.flag) s.dflt) m) := by
  intro tmpl
  induction tmpl with
  | nil => intro _ _ m hm; exact hm
  | cons t rest ih =>
    intro hsub hdef m hm
    rw [List.foldl_cons]
    refine ih (fun s hs => hsub s (List.mem_cons_of_mem _ hs))
      (fun s hs => hdef s (List.mem_cons_of_mem _ hs)) _ ?_
    intro kv hkv
    rcases mem_dictSet m (destOf t.flag) t.dflt kv hkv with h | h
    · exact hm kv h
    · subst h
      have hex := specOfDest_isSome_of_mem tmplAll t
        (hsub t (List.mem_cons_self _ _))
      rw [Option.isSome_iff_exists] at hex
      rcases hex with ⟨s2, hs2⟩
      exact ⟨s2, hs2, Or.inl (hdef t (List.mem_cons_self _ _))⟩

theorem runArgparse_prop (tmpl : List ArgSpec)
    (hnd : (tmpl.map (fun s => destOf s.flag)).Nodup) :
    ∀ (fuel : Nat) (toks : List String) (ns : List (String × PyVal))
      (ex : List String), NsProp tmpl ns →
      ∀ r, runArgparseAux tmpl fuel toks ns ex = Option.some r →
      NsProp tmpl r.1 := by
  intro fuel
  induction fuel with
  | zero =>
    intro toks ns ex hns r h
    cases toks with
    | nil =>
      injection h with h
      rw [← h]
      exact hns
    | cons t ts => exact Option.noConfusion h
  | succ fuel ih =>
    intro toks ns ex hns r h
    cases toks with
    | nil =>
      injection h with h
      rw [← h]
      exact hns
    | cons tok rest =>
      rw [show runArgparseAux tmpl (fuel + 1) (tok :: rest) ns ex
        = if tok == "--" then Option.some (ns, ex ++ rest)
          else if looksLikeOptionTok tok then
            match findSpec tmpl (splitEqTok tok).1 with
            | Option.none => runArgparseAux tmpl fuel rest ns (ex ++ [tok])
            | Option.some s =>
              if s.isBool then
                match (splitEqTok tok).2 with
                | Option.some _ => Option.none
                | Option.none =>
                  runArgparseAux tmpl fuel rest
                    (dictSet ns (destOf s.flag) (PyVal.bool true)) ex
              else
                match (splitEqTok tok).2 with
                | Option.some v =>
                  runArgparseAux tmpl fuel rest
                    (dictSet ns (destOf s.flag) (PyVal.list [v])) ex
                | Option.none =>
                  match rest.takeWhile (fun u => !looksLikeOptionTok u) with
                  | [] => Option.none
                  | v :: vs =>
                    runArgparseAux tmpl fuel
                      (rest.drop (v :: vs).length)
                      (dictSet ns (destOf s.flag) (PyVal.list (v :: vs))) ex
          else runArgparseAux tmpl fuel rest ns (ex ++ [tok])
        from rfl] at h
      split_ifs at h with h1 h2
      · injection h with h
        rw [← h]
        exact hns
      · split at h
        · exact ih rest ns (ex ++ [tok]) hns r h
        next s hfs =>
          have hsmem : s ∈ tmpl := List.mem_of_find?_eq_some hfs
          have hspec := specOfDest_of_mem tmpl hnd s hsmem
          split_ifs at h with hb
          · split at h
            · exact Option.noConfusion h
            · exact ih rest _ ex
                (nsProp_dictSet tmpl ns hns s hspec _
                  (Or.inr (Or.inl ⟨hb, rfl⟩))) r h
          · rw [Bool.not_eq_true] at hb
            split at h
            · exact ih rest _ ex
                (nsProp_dictSet tmpl ns hns s hspec _
                  (Or.inr (Or.inr ⟨hb, _, rfl⟩))) r h
            · split at h
              · exact Option.noConfusion h
              · exact ih _ _ ex
                  (nsProp_dictSet tmpl ns hns s hspec _
                    (Or.inr (Or.inr ⟨hb, _, rfl⟩))) r h
      · exact ih rest ns (ex ++ [tok]) hns r h

theorem pyParseArgs_prop (tmpl : List ArgSpec)
    (hnd : (tmpl.map (fun s => destOf s.flag)).Nodup)
    (hdef : ∀ s ∈ tmpl, s.dflt = PyVal.none) (args : List String) :
    NsProp tmpl (pyParseArgs tmpl args).1 := by
  have hns0 : NsProp tmpl
      (tmpl.foldl (fun m s => dictSet m (destOf s.flag) s.dflt) []) :=
    nsFold_prop tmpl tmpl (fun s hs => hs) hdef []
      (fun kv hkv => absurd hkv (List.not_mem_nil kv))
  simp only [pyParseArgs]
  cases hr : runArgparseAux tmpl args.length args
      (tmpl.foldl (fun m s => dictSet m (destOf s.flag) s.dflt) []) [] with
  | none =>
    intro kv hkv
    exact absurd hkv (List.not_mem_nil kv)
  | some r =>
    exact runArgparse_prop tmpl hnd args.length args _ [] hns0 r hr

/-- The running invariant of the `get_args_from_file` merge loop: every
merged value is `True` on a `store_true` destination or a string list on
a variadic destination whose `arg_lines` entry has exactly one line
number per list element; destinations not yet merged have no
`arg_lines` entry. -/
def MergedProp (tmpl : List ArgSpec) (merged : List (String × PyVal))
    (argLines : List (String × List Nat)) : Prop :=
  (∀ k v, dictFind merged k = Option.some v →
    ∃ s, specOfDest tmpl k = Option.some s ∧
      ((s.isBool = true ∧ v = PyVal.bool true) ∨
       (s.isBool = false ∧ ∃ xs ls, v = PyVal.list xs ∧
          dictFind argLines k = Option.some ls ∧ ls.length = xs.length))) ∧
  (∀ k, (specOfDest tmpl k).isSome = true →
    dictFind merged k = Option.none → dictFind argLines k = Option.none)

theorem mergedProp_set (tmpl : List ArgSpec)
    (merged : List (String × PyVal)) (argLines : List (String × List Nat))
    (hacc : MergedProp tmpl merged argLines)
    (k : String) (v : PyVal) (entry : List Nat) (s : ArgSpec)
    (hspec : specOfDest tmpl k = Option.some s)
    (hcase : (s.isBool = true ∧ v = PyVal.bool true) ∨
      (s.isBool = false ∧ ∃ xs, v = PyVal.list xs ∧
        entry.length = xs.length)) :
    MergedProp tmpl (dictSet merged k v) (dictSet argLines k entry) := by
  constructor
  · intro q w hq
    rw [dictFind_dictSet] at hq
    by_cases heq : (k == q) = true
    · rw [if_pos heq] at hq
      injection hq with hq
      have hkq := beq_iff_eq.mp heq
      subst hkq
      subst hq
      rcases hcase with ⟨hb, hveq⟩ | ⟨hb, xs, hveq, hlen⟩
      · exact ⟨s, hspec, Or.inl ⟨hb, hveq⟩⟩
      · refine ⟨s, hspec, Or.inr ⟨hb, xs, entry, hveq, ?_, hlen⟩⟩
        rw [dictFind_dictSet, if_pos (by simp : (k == k) = true)]
    · rw [if_neg heq] at hq
      rcases hacc.1 q w hq with ⟨s2, hs2, hc⟩
      refine ⟨s2, hs2, ?_⟩
      rcases hc with hcl | ⟨hb2, xs2, ls2, hveq2, hfind2, hlen2⟩
      · exact Or.inl hcl
      · refine Or.inr ⟨hb2, xs2, ls2, hveq2, ?_, hlen2⟩
        rw [dictFind_dictSet, if_neg heq]
        exact hfind2
  · intro q hqs hqn
    rw [dictFind_dictSet] at hqn
    by_cases heq : (k == q) = true
    · rw [if_pos heq] at hqn
      exact Option.noConfusion hqn
    · rw [if_neg heq] at hqn
      rw [dictFind_dictSet, if_neg heq]
      exact hacc.2 q hqs hqn

theorem mergedProp_set_unknown (tmpl : List ArgSpec)
    (hunk : ∀ s ∈ tmpl, destOf s.flag ≠ "__unknown__")
    (merged : List (String × PyVal)) (argLines : List (String × List Nat))
    (hacc : MergedProp tmpl merged argLines) (entry : List Nat) :
    MergedProp tmpl merged (dictSet argLines "__unknown__" entry) := by
  have hne : ∀ q s2, specOfDest tmpl q = Option.some s2 →
      (("__unknown__" : String) == q) = false := by
    intro q s2 hs2
    rw [beq_eq_false_iff_ne]
    rcases specOfDest_dest tmpl q s2 hs2 with ⟨hmem, hdest⟩
    intro he
    exact hunk s2 hmem (by rw [hdest, ← he])
  constructor
  · intro q w hq
    rcases hacc.1 q w hq with ⟨s2, hs2, hc⟩
    refine ⟨s2, hs2, ?_⟩
    rcases hc with hcl | ⟨hb2, xs2, ls2, hveq2, hfind2, hlen2⟩
    · exact Or.inl hcl
    · refine Or.inr ⟨hb2, xs2, ls2, hveq2, ?_, hlen2⟩
      rw [dictFind_dictSet, if_neg (show
        ¬(("__unknown__" : String) == q) = true from by
          rw [hne q s2 hs2]
          exact Bool.false_ne_true)]
      exact hfind2
  · intro q hqs hqn
    rw [Option.isSome_iff_exists] at hqs
    rcases hqs with ⟨s2, hs2⟩
    rw [dictFind_dictSet, if_neg (show
      ¬(("__unknown__" : String) == q) = true from by
        rw [hne q s2 hs2]
        exact Bool.false_ne_true)]
    exact hacc.2 q (by rw [hs2]; rfl) hqn

theorem mergeOneKV_prop (tmpl : List ArgSpec) (lineno : Nat)
    (acc : List (String × PyVal) × List (String × List Nat))
    (hacc : MergedProp tmpl acc.1 acc.2)
    (kv : String × PyVal)
    (hkv : ∃ s, specOfDest tmpl kv.1 = Option.some s ∧
      (kv.2 = PyVal.none ∨ (s.isBool = true ∧ kv.2 = PyVal.bool true) ∨
       (s.isBool = false ∧ ∃ xs, kv.2 = PyVal.list xs))) :
    MergedProp tmpl (mergeOneKV lineno acc kv).1
      (mergeOneKV lineno acc kv).2 := by
  obtain ⟨k, v⟩ := kv
  obtain ⟨s, hspec, hv⟩ := hkv
  rcases hv with hvn | ⟨hb, hveq⟩ | ⟨hb, xs, hveq⟩
  · rw [show mergeOneKV lineno acc (k, v) = acc from by
      simp only at hvn
      subst hvn
      simp [mergeOneKV, pyIsNoneOrEmptyStr]]
    exact hacc
  · simp only at hveq
    subst hveq
    have hstep : mergeOneKV lineno acc (k, PyVal.bool true)
        = (dictSet acc.1 k (PyVal.bool true),
           dictSet acc.2 k
             (dictGet acc.2 k [] ++ List.replicate 1 lineno)) := by
      cases hold : dictFind acc.1 k with
      | none => simp [mergeOneKV, pyIsNoneOrEmptyStr, hold]
      | some old =>
        rcases hacc.1 k old hold with ⟨s2, hspec2, hc⟩
        rw [hspec] at hspec2
        injection hspec2 with hs2
        subst hs2
        rcases hc with ⟨_, holdeq⟩ | ⟨hb2, _⟩
        · subst holdeq
          simp [mergeOneKV, pyIsNoneOrEmptyStr, hold]
        · rw [hb] at hb2
          exact Bool.noConfusion hb2
    rw [hstep]
    exact mergedProp_set tmpl acc.1 acc.2 hacc k _ _ s hspec
      (Or.inl ⟨hb, rfl⟩)
  · simp only at hveq
    subst hveq
    cases hold : dictFind acc.1 k with
    | none =>
      have hstep : mergeOneKV lineno acc (k, PyVal.list xs)
          = (dictSet acc.1 k (PyVal.list xs),
             dictSet acc.2 k
               (dictGet acc.2 k []
                 ++ List.replicate xs.length lineno)) := by
        simp [mergeOneKV, pyIsNoneOrEmptyStr, hold]
      rw [hstep]
      have hnone2 : dictFind acc.2 k = Option.none :=
        hacc.2 k (by rw [hspec]; rfl) hold
      rw [dictGet_eq_of_dictFind_none acc.2 k [] hnone2]
      refine mergedProp_set tmpl acc.1 acc.2 hacc k _ _ s hspec
        (Or.inr ⟨hb, xs, rfl, ?_⟩)
      simp
    | some old =>
      rcases hacc.1 k old hold with ⟨s2, hspec2, hc⟩
      rw [hspec] at hspec2
      injection hspec2 with hs2
      subst hs2
      rcases hc with ⟨hb2, _⟩ | ⟨hb2, a, ls, holdeq, hfindls, hlen⟩
      · rw [hb] at hb2
        exact Bool.noConfusion hb2
      · subst holdeq
        have hstep : mergeOneKV lineno acc (k, PyVal.list xs)
            = (dictSet acc.1 k (PyVal.list (a ++ xs)),
               dictSet acc.2 k
                 (dictGet acc.2 k []
                   ++ List.replicate xs.length lineno)) := by
          simp [mergeOneKV, pyIsNoneOrEmptyStr, hold]
        rw [hstep]
        rw [dictGet_eq_of_dictFind_some acc.2 k [] ls hfindls]
        refine mergedProp_set tmpl acc.1 acc.2 hacc k _ _ s hspec
          (Or.inr ⟨hb, a ++ xs, rfl, ?_⟩)
        simp [hlen]

theorem foldMerge_prop (tmpl : List ArgSpec) (lineno : Nat) :
    ∀ (kvs : List (String × PyVal)),
    (∀ kv ∈ kvs, ∃ s, specOfDest tmpl kv.1 = Option.some s ∧
      (kv.2 = PyVal.none ∨ (s.isBool = true ∧ kv.2 = PyVal.bool true) ∨
       (s.isBool = false ∧ ∃ xs, kv.2 = PyVal.list xs))) →
    ∀ acc, MergedProp tmpl acc.1 acc.2 →
    MergedProp tmpl (kvs.foldl (mergeOneKV lineno) acc).1
      (kvs.foldl (mergeOneKV lineno) acc).2 := by
  intro kvs
  induction kvs with
  | nil => intro _ acc hacc; exact hacc
  | cons kv rest ih =>
    intro hkvs acc hacc
    rw [List.foldl_cons]
    exact ih (fun kv2 h2 => hkvs kv2 (List.mem_cons_of_mem _ h2)) _
      (mergeOneKV_prop tmpl lineno acc hacc kv
        (hkvs kv (List.mem_cons_self _ _)))

theorem processLine_prop (tmpl : List ArgSpec)
    (hnd : (tmpl.map (fun s => destOf s.flag)).Nodup)
    (hdef : ∀ s ∈ tmpl, s.dflt = PyVal.none)
    (hunk : ∀ s ∈ tmpl, destOf s.flag ≠ "__unknown__")
    (lineno : Nat) (tokens : List String)
    (acc : List (String × PyVal) × List String × List (String × List Nat))
    (hacc : MergedProp tmpl acc.1 acc.2.2) :
    MergedProp tmpl (processLine tmpl lineno tokens acc).1
      (processLine tmpl lineno tokens acc).2.2 := by
  cases tokens with
  | nil => exact hacc
  | cons t0 ts =>
    simp only [processLine]
    split_ifs with h0 h1 h2
    · exact hacc
    · exact hacc
    · exact foldMerge_prop tmpl lineno _
        (pyParseArgs_prop tmpl hnd hdef _) _ hacc
    · exact foldMerge_prop tmpl lineno _
        (pyParseArgs_prop tmpl hnd hdef _) _
        (mergedProp_set_unknown tmpl hunk _ _ hacc _)

theorem getArgsLoop_prop (tmpl : List ArgSpec)
    (hnd : (tmpl.map (fun s => destOf s.flag)).Nodup)
    (hdef : ∀ s ∈ tmpl, s.dflt = PyVal.none)
    (hunk : ∀ s ∈ tmpl, destOf s.flag ≠ "__unknown__") :
    ∀ (lines : List (List String)) (lineno : Nat)
      (acc : List (String × PyVal) × List String ×
        List (String × List Nat)),
    MergedProp tmpl acc.1 acc.2.2 →
    MergedProp tmpl (getArgsLoop tmpl lineno lines acc).1
      (getArgsLoop tmpl lineno lines acc).2.2 := by
  intro lines
  induction lines with
  | nil => intro lineno acc hacc; exact hacc
  | cons tks rest ih =>
    intro lineno acc hacc
    exact ih (lineno + 1) _
      (processLine_prop tmpl hnd hdef hunk lineno tks acc hacc)

/-- C9: for a template whose defaults are all `None` (and whose
destinations are pairwise distinct and distinct from `__unknown__`),
after `get_args_from_file` returns, every variadic destination `k` bound
in the known map holds a string list whose length equals the length of
`arg_lines[k]`: one line number per bound value. -/
theorem arg_lines_variadic_counts (tmpl : List ArgSpec)
    (lines : List (List String)) (onlyFirstLine : Bool)
    (hdef : ∀ s ∈ tmpl, s.dflt = PyVal.none)
    (hnd : (tmpl.map (fun s => destOf s.flag)).Nodup)
    (hunk : ∀ s ∈ tmpl, destOf s.flag ≠ "__unknown__")
    (k : String) (xs : List String)
    (hk : dictFind (getArgsFromFile tmpl lines onlyFirstLine).1 k
      = Option.some (PyVal.list xs)) :
    ∃ ls, dictFind (getArgsFromFile tmpl lines onlyFirstLine).2.2 k
      = Option.some ls ∧ ls.length = xs.length := by
  cases lines with
  | nil => simp [getArgsFromFile, dictFind, List.find?] at hk
  | cons l0 rest =>
    have hinit : MergedProp tmpl
        (([], [], [("__unknown__", ([] : List Nat))]) :
          List (String × PyVal) × List String ×
            List (String × List Nat)).1
        (([], [], [("__unknown__", ([] : List Nat))]) :
          List (String × PyVal) × List String ×
            List (String × List Nat)).2.2 := by
      constructor
      · intro q w hq
        simp [dictFind, List.find?] at hq
      · intro q hqs _
        rw [Option.isSome_iff_exists] at hqs
        rcases hqs with ⟨s2, hs2⟩
        rcases specOfDest_dest tmpl q s2 hs2 with ⟨hmem, hdest⟩
        rw [dictFind_cons_ne ("__unknown__", ([] : List Nat)) [] q
          (by rw [beq_eq_false_iff_ne]
              intro he
              exact hunk s2 hmem (by rw [hdest, ← he]))]
        rfl
    have hfinal := getArgsLoop_prop tmpl hnd hdef hunk
      (if onlyFirstLine then (l0 :: rest).take 1 else l0 :: rest) 1 _ hinit
    rcases hfinal.1 k (PyVal.list xs) hk with ⟨s, _, hc⟩
    rcases hc with ⟨_, hveq⟩ | ⟨_, xs2, ls, hveq, hfind, hlen⟩
    · exact PyVal.noConfusion hveq
    · injection hveq with hxs
      subst hxs
      exact ⟨ls, hfind, hlen⟩

theorem arg_lines_variadic_counts_witness :
    ∃ ls, dictFind (getArgsFromFile [⟨"--x", false, PyVal.none⟩]
        [["--x", "a", "b"]] false).2.2 "x" = Option.some ls ∧
      ls.length = (["a", "b"] : List String).length :=
  arg_lines_variadic_counts [⟨"--x", false, PyVal.none⟩]
    [["--x", "a", "b"]] false (by decide) (by decide) (by decide)
    "x" ["a", "b"] (by rfl)

/-- C9 counterexample to the literal wording: with a template whose
variadic flag `--x` has the scalar default `"d"`, a two-line file that
never mentions `--x` still appends both line numbers to
`arg_lines["x"]`: the known map binds `x` to the single scalar `"d"`,
yet `len(arg_lines["x"]) = 2`. -/
theorem arg_lines_scalar_default_counterexample :
    (getArgsFromFile [⟨"--x", false, PyVal.str "d"⟩]
        [["--y", "a"], ["--y", "b"]] false).1
      = [("x", PyVal.str "d")] ∧
    dictFind ((getArgsFromFile [⟨"--x", false, PyVal.str "d"⟩]
        [["--y", "a"], ["--y", "b"]] false).2.2) "x"
      = Option.some [1, 2] :=
  ⟨rfl, rfl⟩

/-! ## C1: the markdown / main-widget round trip -/

set_option maxRecDepth 60000 in
/-- C1: the round trip is not the identity on canonical markdown.  The
document `****` is its own canonical form, yet serializing it to
main-widget HTML and parsing back yields the empty document (the
serializer emits an empty bold span for it and the parser drops the
resulting blank line); likewise the canonical `**- a**` comes back as
`- **a**` (the parser re-applies the list-prefix split inside the
reconstructed bold line). -/
theorem roundtrip_not_identity :
    (normalizeMarkdownBold (("****").data)).1 = ("****").data ∧
    (mainHtmlToMarkdownAndItems
      (markdownToPlasmaHtml (("****").data))).1 = [] ∧
    (normalizeMarkdownBold (("**- a**").data)).1 = ("**- a**").data ∧
    (mainHtmlToMarkdownAndItems
      (markdownToPlasmaHtml (("**- a**").data))).1 = ("- **a**").data := by
  refine ⟨rfl, ?_, rfl, ?_⟩ <;> rfl

end LucyNotes
